import Mathlib

/-!
Shallow embedding of the last-modified resolver of the caddy-git-server repository
(`getLastCommitForPaths`, `getFileHashes`, `getCommitTree`, `commitAndPaths`
in the git browser source file).

Modelling conventions:

* A commit is identified by a natural number.  A `GitStore`
  maps every id to its `CommitData`: commit time, the ordered parent list
  (each parent access can fail, modelling `CommitNode.ParentNode(i)`
  returning an error), the result of `CommitNode.Tree()` (`rootTree`), the
  result of descending the root tree to a given subtree path
  (`subTrees`, modelling `tree.Tree(treePath)`), and the result of
  `CommitNode.Commit()` (`commitObj`).
* Content hashes are naturals; the Go zero value `plumbing.ZeroHash` is `0`,
  and a lookup of a missing key in a Go hash map yields that zero value
  (`hashOf`).
* Go maps from paths to hashes are association lists; `lookupPath` finds the
  first binding, and insertions during a traversal only ever add fresh keys,
  so first-binding lookup agrees with Go map semantics.
* The `binaryheap` from the gods library, built with the comparator that
  orders entries by descending `CommitTime`, is modelled as a list whose
  `popMax` removes the first entry of maximal commit time.  No theorem below
  depends on the tie-breaking order among equal times.
* The unbounded `for` loop of `getLastCommitForPaths` is modelled by
  iterating the loop body `stepLoop` a given number (`fuel`) of times;
  the termination theorem shows an explicit fuel after which the heap is
  empty and the result no longer changes, so the fuelled function agrees
  with the Go loop for all sufficiently large fuel.
-/

/-- Errors surfaced by the embedded object store: `object.ErrDirectoryNotFound`
is distinguished because `getFileHashes` tests for it; every other fetch
failure is collapsed into `ioError`. -/
inductive GErr where
  | directoryNotFound
  | ioError
deriving DecidableEq, Repr

/-- A fetched tree object: its own hash and the successful `FindEntry`
results, keyed by the (possibly nested) relative path. -/
structure TreeObj where
  hash : Nat
  entries : List (String × Nat)
deriving DecidableEq, Repr

/-- Everything the code can ask of a commit node and its objects. -/
structure CommitData where
  time : Nat
  parents : List (Except Unit Nat)
  rootTree : Except GErr TreeObj
  subTrees : String → Except GErr TreeObj
  commitObj : Except GErr Unit

/-- The backing object store: total on ids; absent commits are modelled by
parent entries of `.error`. -/
abbrev GitStore := Nat → CommitData

/-- First-binding association-list lookup (Go map read). -/
def lookupPath (m : List (String × Nat)) (p : String) : Option Nat :=
  match m with
  | [] => none
  | (k, v) :: rest => if k = p then some v else lookupPath rest p

/-- Go map read with the zero value for missing keys
(`parentHashes[j][path]` yields `plumbing.ZeroHash` when absent). -/
def hashOf (m : List (String × Nat)) (p : String) : Nat :=
  (lookupPath m p).getD 0

/-- Embeds `getCommitTree`: fetch the commit's root tree, then descend to
`treePath` when it is nonempty. -/
def getCommitTree (st : GitStore) (c : Nat) (treePath : String) :
    Except GErr TreeObj :=
  match (st c).rootTree with
  | .error e => .error e
  | .ok tree => if treePath = "" then .ok tree else (st c).subTrees treePath

/-- Embeds `tree.FindEntry(path)` (successful results only; a failed
`FindEntry` is `none` and is skipped by `getFileHashes`). -/
def findEntry (t : TreeObj) (path : String) : Option Nat :=
  lookupPath t.entries path

/-- The per-path loop body of `getFileHashes`: a nonempty path contributes a
binding when `FindEntry` succeeds, the empty path contributes the tree's own
hash. -/
def collectHashes (tree : TreeObj) : List String → List (String × Nat)
  | [] => []
  | path :: rest =>
    if path ≠ "" then
      match findEntry tree path with
      | some h => (path, h) :: collectHashes tree rest
      | none => collectHashes tree rest
    else (path, tree.hash) :: collectHashes tree rest

/-- Embeds `getFileHashes`: a missing subtree (`ErrDirectoryNotFound`) gives
the empty mapping, any other tree-fetch failure propagates. -/
def getFileHashes (st : GitStore) (c : Nat) (treePath : String)
    (paths : List String) : Except GErr (List (String × Nat)) :=
  match getCommitTree st c treePath with
  | .error .directoryNotFound => .ok []
  | .error e => .error e
  | .ok tree => .ok (collectHashes tree paths)

/-- Embeds the `commitAndPaths` frontier record. -/
structure commitAndPaths where
  commit : Nat
  paths : List String
  hashes : List (String × Nat)
deriving DecidableEq, Repr

/-- The mutable state of the traversal loop: the heap contents and the
`resultNodes` map. -/
structure LoopState where
  heap : List commitAndPaths
  results : List (String × Nat)
deriving DecidableEq, Repr

/-- Pop from the time-ordered heap: the first entry of maximal commit time.
`none` exactly when the heap is empty. -/
def popMax (st : GitStore) : List commitAndPaths →
    Option (commitAndPaths × List commitAndPaths)
  | [] => none
  | e :: rest =>
    match popMax st rest with
    | none => some (e, [])
    | some (m, rest') =>
      if (st m.commit).time > (st e.commit).time then some (m, e :: rest')
      else some (e, rest)

/-- Embeds the parent-collection loop: `ParentNode(i)` is called for
`i < NumParents()` and the loop breaks at the first failure. -/
def collectParents : List (Except Unit Nat) → List Nat
  | [] => []
  | .ok p :: rest => p :: collectParents rest
  | .error _ :: _ => []

/-- Embeds the `parentHashes` scan: each parent's hashes are fetched in
order; on the first failure the loop breaks, leaving that slot and all later
slots as nil maps.  Returns the hash maps (one per parent) and the number of
parents successfully processed (only those contribute to `pathUnchanged`). -/
def scanHashes (st : GitStore) (treePath : String) (cpaths : List String) :
    List Nat → List (List (String × Nat)) × Nat
  | [] => ([], 0)
  | p :: rest =>
    match getFileHashes st p treePath cpaths with
    | .ok m =>
      let s := scanHashes st treePath cpaths rest
      (m :: s.1, s.2 + 1)
    | .error _ => ([] :: rest.map (fun _ => []), 0)

/-- Embeds the recording loop over `current.paths`: a path already bound in
`resultNodes` is skipped; an unchanged path joins `remainingPaths`; otherwise
the current commit is recorded for it. -/
def recordPaths (commit : Nat) (unchanged : String → Bool) :
    List String → List (String × Nat) → List String →
    List (String × Nat) × List String
  | [], results, remaining => (results, remaining)
  | path :: rest, results, remaining =>
    if (lookupPath results path).isNone then
      if unchanged path then
        recordPaths commit unchanged rest results (remaining ++ [path])
      else
        recordPaths commit unchanged rest (results ++ [(path, commit)]) remaining
    else recordPaths commit unchanged rest results remaining

/-- Embeds the push loop over the parents: the remaining paths are split into
those matching parent `j` (pushed with parent `j` — the guard
`remainingPathsForParent != nil` in the source never fails, because
`make([]string, 0, n)` is non-nil, so the push is unconditional) and the
rest; the loop breaks when no paths remain. -/
def pushList (curHashes : List (String × Nat)) :
    List Nat → List (List (String × Nat)) → List String →
    List commitAndPaths
  | [], _, _ => []
  | _ :: _, [], _ => []
  | p :: ps, m :: ms, remaining =>
    let forParent := remaining.filter (fun path => hashOf m path == hashOf curHashes path)
    let newRem := remaining.filter (fun path => !(hashOf m path == hashOf curHashes path))
    ⟨p, forParent, m⟩ ::
      (if newRem.isEmpty then [] else pushList curHashes ps ms newRem)

/-- The parents examined for a popped entry (the `parents` slice). -/
def stepParents (st : GitStore) (cur : commitAndPaths) : List Nat :=
  collectParents (st cur.commit).parents

/-- The `parentHashes` array and the number of parents whose hashes were
computed before the scan broke. -/
def stepScan (st : GitStore) (treePath : String) (cur : commitAndPaths) :
    List (List (String × Nat)) × Nat :=
  scanHashes st treePath cur.paths (stepParents st cur)

/-- The `pathUnchanged` flag for a path: some successfully processed parent
has the same hash for it as the popped commit. -/
def stepUnch (st : GitStore) (treePath : String) (cur : commitAndPaths)
    (path : String) : Bool :=
  ((stepScan st treePath cur).1.take (stepScan st treePath cur).2).any
    (fun m => hashOf m path == hashOf cur.hashes path)

/-- The recording loop applied to the popped entry: new `resultNodes` and
`remainingPaths`. -/
def stepRecord (st : GitStore) (treePath : String) (cur : commitAndPaths)
    (results : List (String × Nat)) : List (String × Nat) × List String :=
  recordPaths cur.commit (stepUnch st treePath cur) cur.paths results []

/-- The frontier entries pushed for the popped entry (none when no paths
remain). -/
def stepPushes (st : GitStore) (treePath : String) (cur : commitAndPaths)
    (results : List (String × Nat)) : List commitAndPaths :=
  if (stepRecord st treePath cur results).2.isEmpty then []
  else
    pushList cur.hashes (stepParents st cur) (stepScan st treePath cur).1
      (stepRecord st treePath cur results).2

/-- One iteration of the `for { ... }` loop of `getLastCommitForPaths`
(identity on an empty heap). -/
def stepLoop (st : GitStore) (treePath : String) (s : LoopState) : LoopState :=
  match popMax st s.heap with
  | none => s
  | some (current, rest) =>
    ⟨rest ++ stepPushes st treePath current s.results,
     (stepRecord st treePath current s.results).1⟩

/-- Iterate the loop body at most `n` times, stopping at an empty heap. -/
def loopN (st : GitStore) (treePath : String) : Nat → LoopState → LoopState
  | 0, s => s
  | n + 1, s => if s.heap.isEmpty then s else loopN st treePath n (stepLoop st treePath s)

/-- Embeds the post-processing loop: `commitNode.Commit()` for every recorded
node; any failure aborts with that error. -/
def postProcess (st : GitStore) :
    List (String × Nat) → Except GErr (List (String × Nat))
  | [] => .ok []
  | (p, c) :: rest =>
    match (st c).commitObj with
    | .error e => .error e
    | .ok _ =>
      match postProcess st rest with
      | .error e => .error e
      | .ok r => .ok ((p, c) :: r)

/-- Embeds `getLastCommitForPaths`, with the unbounded loop run for `fuel`
iterations (see the termination theorem for why this is faithful). -/
def getLastCommitForPaths (st : GitStore) (fuel : Nat) (c : Nat)
    (treePath : String) (paths : List String) :
    Except GErr (List (String × Nat)) :=
  match getFileHashes st c treePath paths with
  | .error e => .error e
  | .ok initialHashes =>
    postProcess st
      (loopN st treePath fuel ⟨[⟨c, paths, initialHashes⟩], []⟩).results

/-- True on successful fetches. -/
def exOk {ε α : Type} : Except ε α → Bool
  | .ok _ => true
  | .error _ => false

/-- The successful value of a hash fetch (nil map on failure, matching the Go
multi-assignment that leaves the slot nil). -/
def exVal {ε : Type} : Except ε (List (String × Nat)) → List (String × Nat)
  | .ok m => m
  | .error _ => []

/-- The hash the traversal compares for path `q` at commit `d` (the Go map
read: the entry hash, the subtree hash for the empty path, and the zero hash
when the path or the subtree is absent). -/
def fileHashTree (t : TreeObj) (q : String) : Nat :=
  if q = "" then t.hash else (findEntry t q).getD 0

/-- `fileHashTree` lifted over the subtree fetch (zero when the subtree is
missing or unreadable, as a nil-map read gives the zero hash). -/
def fileHash (st : GitStore) (treePath : String) (d : Nat) (q : String) : Nat :=
  match getCommitTree st d treePath with
  | .ok t => fileHashTree t q
  | .error _ => 0

/-- Commit ids up to `n` are topologically ordered (each parent id is below
its child — every finite acyclic DAG can be numbered this way) and no commit
up to `n` has more than `B - 2` parents. -/
def goodParents (st : GitStore) (n B : Nat) : Bool :=
  (List.range (n + 1)).all fun d =>
    decide ((st d).parents.length + 2 ≤ B) &&
    (st d).parents.all fun x =>
      match x with
      | .ok p => decide (p < d)
      | .error _ => true

/-- Every `ParentNode` access up to commit `n` succeeds. -/
def parentsAllOk (st : GitStore) (n : Nat) : Bool :=
  (List.range (n + 1)).all fun d => (st d).parents.all fun x => exOk x

/-- Every subtree fetch up to commit `n` is either successful or a plain
`ErrDirectoryNotFound` (no I/O failures). -/
def treesOk (st : GitStore) (treePath : String) (n : Nat) : Bool :=
  (List.range (n + 1)).all fun d =>
    match getCommitTree st d treePath with
    | .ok _ => true
    | .error .directoryNotFound => true
    | .error .ioError => false

/-- Every `CommitNode.Commit()` conversion up to commit `n` succeeds. -/
def commitsOk (st : GitStore) (n : Nat) : Bool :=
  (List.range (n + 1)).all fun d => exOk (st d).commitObj

/-- Follow first parents for at most `fuel` steps (stops at a root or at a
failing first-parent access). -/
def fpRootAux (st : GitStore) : Nat → Nat → Nat
  | 0, d => d
  | fuel + 1, d =>
    match (st d).parents with
    | [] => d
    | x :: _ =>
      match x with
      | .ok p => fpRootAux st fuel p
      | .error _ => d

/-- The root reached from `d` by always following the first parent; on a
topologically ordered store `d + 1` steps always suffice. -/
def fpRoot (st : GitStore) (d : Nat) : Nat := fpRootAux st (d + 1) d

/-- `Reach st a b`: commit `b` is `a` itself or reachable from `a` by
following parent edges (the ancestor relation of the DAG). -/
inductive Reach (st : GitStore) : Nat → Nat → Prop
  | refl (c : Nat) : Reach st c c
  | step {a b c : Nat} : Reach st a b → Except.ok c ∈ (st b).parents → Reach st a c

/-- Termination weight of one frontier entry. -/
def wEntry (B : Nat) (e : commitAndPaths) : Nat :=
  (e.paths.length + 1) * B ^ (e.commit + 1)

/-- Termination weight of the heap: strictly decreases at every loop step on
a topologically ordered store. -/
def wHeap (B : Nat) (h : List commitAndPaths) : Nat :=
  (h.map (wEntry B)).sum

/-- Default tree used by the example stores. -/
def defTree : TreeObj := ⟨0, []⟩

/-- Default commit data used by the example stores (root commit, empty tree,
all conversions succeed). -/
def defData : CommitData :=
  ⟨0, [], .ok defTree, fun _ => .error .directoryNotFound, .ok ()⟩

/-- Linear history: commit 0 (root, `a` = 1, `b` = 2), commit 1 (changes `b`
to 3), commit 2 (changes `a` to 4). -/
def storeLinear : GitStore := fun c =>
  match c with
  | 0 => { defData with
           time := 10
           rootTree := .ok ⟨100, [("a", 1), ("b", 2)]⟩ }
  | 1 => { defData with
           time := 20
           parents := [.ok 0]
           rootTree := .ok ⟨101, [("a", 1), ("b", 3)]⟩ }
  | 2 => { defData with
           time := 30
           parents := [.ok 1]
           rootTree := .ok ⟨102, [("a", 4), ("b", 3)]⟩ }
  | _ => defData

/-- A single root commit with an empty tree: any requested path is absent. -/
def storeAbsent : GitStore := fun c =>
  match c with
  | 0 => { defData with
           time := 10
           rootTree := .ok ⟨100, []⟩ }
  | _ => defData

/-- Merge commit 2 with parents 0 and 1; the hash of `a` at the merge (5)
matches only the second parent. -/
def storeMerge : GitStore := fun c =>
  match c with
  | 0 => { defData with
           time := 10
           rootTree := .ok ⟨100, [("a", 9)]⟩ }
  | 1 => { defData with
           time := 15
           rootTree := .ok ⟨101, [("a", 5)]⟩ }
  | 2 => { defData with
           time := 30
           parents := [.ok 0, .ok 1]
           rootTree := .ok ⟨102, [("a", 5)]⟩ }
  | _ => defData

/-- Merge commit 3 with parents 1 and 2 whose hashes for `a` both match the
merge; the first-matching-parent rule must pick parent 1 only. -/
def storeBothMatch : GitStore := fun c =>
  match c with
  | 1 => { defData with
           time := 10
           rootTree := .ok ⟨101, [("a", 5)]⟩ }
  | 2 => { defData with
           time := 15
           rootTree := .ok ⟨102, [("a", 5)]⟩ }
  | 3 => { defData with
           time := 30
           parents := [.ok 1, .ok 2]
           rootTree := .ok ⟨103, [("a", 5)]⟩ }
  | _ => defData

/-- Commit 1 is the start; fetching the root tree of its parent 0 fails with
an I/O error, so every hash computation at commit 0 fails. -/
def storeFetchErr : GitStore := fun c =>
  match c with
  | 0 => { defData with
           time := 10
           rootTree := .error .ioError }
  | 1 => { defData with
           time := 20
           parents := [.ok 0]
           rootTree := .ok ⟨101, [("a", 1)]⟩ }
  | _ => defData

/-- A root commit with subtree `d` containing `f`; any other subtree path is
absent. -/
def storeSub : GitStore := fun c =>
  match c with
  | 0 => { defData with
           time := 10
           rootTree := .ok ⟨100, [("d", 7)]⟩
           subTrees := fun tp => if tp = "d" then .ok ⟨7, [("f", 3)]⟩ else .error .directoryNotFound }
  | _ => defData

/-- Two-commit chain on which the hash of `k` never changes: commit 1 is the
start, commit 0 the root; `k` has hash 7 at both. -/
def storeRootLaw : GitStore := fun c =>
  match c with
  | 0 => { defData with
           time := 10
           rootTree := .ok ⟨100, [("k", 7), ("z", 1)]⟩ }
  | 1 => { defData with
           time := 20
           parents := [.ok 0]
           rootTree := .ok ⟨101, [("k", 7), ("z", 2)]⟩ }
  | _ => defData

/-! ## Association-list lemmas -/

theorem lookupPath_append_of_some {m : List (String × Nat)} {p : String} {v : Nat}
    (h : lookupPath m p = some v) (m' : List (String × Nat)) :
    lookupPath (m ++ m') p = some v := by
  induction m with
  | nil => simp [lookupPath] at h
  | cons kv rest ih =>
    obtain ⟨k, w⟩ := kv
    by_cases hk : k = p
    · simp [lookupPath, hk] at h ⊢; exact h
    · simp [lookupPath, hk] at h ⊢; exact ih h

theorem lookupPath_append_of_none {m : List (String × Nat)} {p : String}
    (h : lookupPath m p = none) (m' : List (String × Nat)) :
    lookupPath (m ++ m') p = lookupPath m' p := by
  induction m with
  | nil => simp
  | cons kv rest ih =>
    obtain ⟨k, w⟩ := kv
    by_cases hk : k = p
    · simp [lookupPath, hk] at h
    · simp [lookupPath, hk] at h ⊢; exact ih h

theorem lookupPath_mem {m : List (String × Nat)} {p : String} {v : Nat}
    (h : lookupPath m p = some v) : (p, v) ∈ m := by
  induction m with
  | nil => simp [lookupPath] at h
  | cons kv rest ih =>
    obtain ⟨k, w⟩ := kv
    by_cases hk : k = p
    · subst hk
      simp [lookupPath] at h
      simp [h]
    · simp [lookupPath, hk] at h
      exact List.mem_cons_of_mem _ (ih h)

theorem lookupPath_none_of_not_mem {m : List (String × Nat)} {p : String}
    (h : ∀ v, (p, v) ∉ m) : lookupPath m p = none := by
  induction m with
  | nil => rfl
  | cons kv rest ih =>
    obtain ⟨k, w⟩ := kv
    by_cases hk : k = p
    · subst hk; exact absurd (List.mem_cons_self _ _) (h w)
    · simp [lookupPath, hk]
      exact ih fun v hv => h v (List.mem_cons_of_mem _ hv)

/-! ## `getFileHashes` characterisation -/

theorem lookupPath_collectHashes (t : TreeObj) (ps : List String) (q : String) :
    lookupPath (collectHashes t ps) q =
      if q ∈ ps then (if q = "" then some t.hash else findEntry t q) else none := by
  induction ps with
  | nil => simp [collectHashes, lookupPath]
  | cons p rest ih =>
    by_cases hpq : p = q
    · subst hpq
      by_cases hpe : p = ""
      · subst hpe
        simp [collectHashes, lookupPath, ih]
      · simp only [collectHashes, if_neg, ne_eq, hpe, not_false_iff, if_true]
        cases hfe : findEntry t p with
        | some h =>
          simp [lookupPath, List.mem_cons, hpe, hfe]
        | none =>
          rw [ih]
          by_cases hr : p ∈ rest <;> simp [List.mem_cons, hr, hpe, hfe]
    · by_cases hpe : p = ""
      · subst hpe
        have hq : q ≠ "" := fun hc => hpq hc.symm
        simp [collectHashes, lookupPath, hpq, ih, List.mem_cons, Ne.symm hpq, hq]
      · simp only [collectHashes, ne_eq, hpe, not_false_iff, if_true]
        cases hfe : findEntry t p with
        | some h =>
          simp only [lookupPath, hpq, if_neg, ih]
          simp [List.mem_cons, Ne.symm hpq]
        | none =>
          rw [ih]
          simp [List.mem_cons, Ne.symm hpq]

theorem hashOf_collectHashes {t : TreeObj} {ps : List String} {q : String}
    (h : q ∈ ps) : hashOf (collectHashes t ps) q = fileHashTree t q := by
  rw [hashOf, lookupPath_collectHashes, if_pos h, fileHashTree]
  by_cases hq : q = "" <;> simp [hq]

theorem getFileHashes_hashOf {st : GitStore} {c : Nat} {treePath : String}
    {ps : List String} {q : String} {m : List (String × Nat)}
    (hq : q ∈ ps) (h : getFileHashes st c treePath ps = .ok m) :
    hashOf m q = fileHash st treePath c q := by
  rw [getFileHashes] at h
  rw [fileHash]
  cases hct : getCommitTree st c treePath with
  | ok t =>
    rw [hct] at h
    cases h
    exact hashOf_collectHashes hq
  | error e =>
    rw [hct] at h
    cases e with
    | directoryNotFound => cases h; simp [hashOf, lookupPath]
    | ioError => cases h

theorem getFileHashes_domain {st : GitStore} {c : Nat} {treePath : String}
    {ps : List String} {q : String} {m : List (String × Nat)}
    (h : getFileHashes st c treePath ps = .ok m) (hq : q ∉ ps) :
    lookupPath m q = none := by
  rw [getFileHashes] at h
  cases hct : getCommitTree st c treePath with
  | ok t =>
    rw [hct] at h
    cases h
    rw [lookupPath_collectHashes, if_neg hq]
  | error e =>
    rw [hct] at h
    cases e with
    | directoryNotFound => cases h; rfl
    | ioError => cases h

/-- Claim C9: `getFileHashes` maps every requested path present under the
commit's subtree to its entry hash (the empty path to the subtree's own
hash), silently omits requested paths that are absent and paths that were
not requested, and returns the empty mapping without an error when the
subtree path itself does not exist under the commit. -/
theorem getFileHashes_contract (st : GitStore) (c : Nat) (treePath : String)
    (paths : List String) :
    (∀ tree, getCommitTree st c treePath = .ok tree →
      ∃ m, getFileHashes st c treePath paths = .ok m ∧
        (∀ q h, q ∈ paths → q ≠ "" → findEntry tree q = some h → lookupPath m q = some h) ∧
        ("" ∈ paths → lookupPath m "" = some tree.hash) ∧
        (∀ q, q ≠ "" → findEntry tree q = none → lookupPath m q = none) ∧
        (∀ q, q ∉ paths → lookupPath m q = none)) ∧
    (getCommitTree st c treePath = .error .directoryNotFound →
      getFileHashes st c treePath paths = .ok []) := by
  constructor
  · intro tree htree
    refine ⟨collectHashes tree paths, ?_, ?_, ?_, ?_, ?_⟩
    · rw [getFileHashes, htree]
    · intro q h hq hne hfe
      rw [lookupPath_collectHashes, if_pos hq, if_neg hne, hfe]
    · intro hq
      rw [lookupPath_collectHashes, if_pos hq, if_pos rfl]
    · intro q hne hfe
      rw [lookupPath_collectHashes]
      by_cases hq : q ∈ paths <;> simp [hq, hne, hfe]
    · intro q hq
      rw [lookupPath_collectHashes, if_neg hq]
  · intro htree
    rw [getFileHashes, htree]

/-- Witness for claim C9 on the concrete store `storeSub`: under subtree `d`
the present path `f` is mapped to its hash, the empty path to the subtree
hash, the absent path `g` is omitted, and the nonexistent subtree `nope`
yields the empty mapping. -/
theorem getFileHashes_contract_witness :
    (∃ m, getFileHashes storeSub 0 "d" ["f", "g", ""] = .ok m ∧
      lookupPath m "f" = some 3 ∧ lookupPath m "" = some 7 ∧
      lookupPath m "g" = none) ∧
    getFileHashes storeSub 0 "nope" ["f"] = .ok [] := by
  constructor
  · obtain ⟨m, hok, hpresent, hempty, habsent, -⟩ :=
      (getFileHashes_contract storeSub 0 "d" ["f", "g", ""]).1 ⟨7, [("f", 3)]⟩ rfl
    exact ⟨m, hok, hpresent "f" 3 (by decide) (by decide) (by decide),
      hempty (by decide), habsent "g" (by decide) (by decide)⟩
  · exact (getFileHashes_contract storeSub 0 "nope" ["f"]).2 rfl

/-! ## Heap lemmas -/

theorem popMax_eq_none {st : GitStore} {h : List commitAndPaths} :
    popMax st h = none ↔ h = [] := by
  cases h with
  | nil => simp [popMax]
  | cons e rest =>
    simp only [popMax]
    constructor
    · intro hc
      cases hp : popMax st rest with
      | none => rw [hp] at hc; cases hc
      | some pr =>
        rw [hp] at hc
        obtain ⟨m, rest'⟩ := pr
        by_cases ht : (st m.commit).time > (st e.commit).time <;> simp [ht] at hc
    · intro hc; cases hc

theorem popMax_perm {st : GitStore} {h rest : List commitAndPaths}
    {cur : commitAndPaths} (hp : popMax st h = some (cur, rest)) :
    h.Perm (cur :: rest) := by
  induction h generalizing cur rest with
  | nil => cases hp
  | cons e tail ih =>
    simp only [popMax] at hp
    cases hq : popMax st tail with
    | none =>
      rw [hq] at hp
      rw [popMax_eq_none] at hq
      cases hp
      rw [hq]
    | some pr =>
      obtain ⟨m, rest'⟩ := pr
      rw [hq] at hp
      dsimp only at hp
      by_cases ht : (st m.commit).time > (st e.commit).time
      · rw [if_pos ht] at hp
        cases hp
        exact ((ih hq).cons e).trans (List.Perm.swap cur e rest')
      · rw [if_neg ht] at hp
        cases hp
        exact List.Perm.refl _

/-! ## Parent-collection and hash-scan lemmas -/

theorem mem_collectParents {l : List (Except Unit Nat)} {p : Nat}
    (h : p ∈ collectParents l) : Except.ok p ∈ l := by
  induction l with
  | nil => cases h
  | cons x rest ih =>
    cases x with
    | ok q =>
      rw [collectParents] at h
      rcases List.mem_cons.mp h with h | h
      · subst h; exact List.mem_cons_self _ _
      · exact List.mem_cons_of_mem _ (ih h)
    | error e => cases h

theorem collectParents_all_ok {l : List (Except Unit Nat)}
    (h : ∀ x ∈ l, exOk x = true) :
    l = (collectParents l).map Except.ok := by
  induction l with
  | nil => rfl
  | cons x rest ih =>
    cases x with
    | ok q =>
      rw [collectParents, List.map_cons]
      rw [← ih fun y hy => h y (List.mem_cons_of_mem _ hy)]
    | error e => exact absurd (h _ (List.mem_cons_self _ _)) (by simp [exOk])

theorem scanHashes_fst_length (st : GitStore) (treePath : String)
    (cpaths : List String) (ps : List Nat) :
    (scanHashes st treePath cpaths ps).1.length = ps.length := by
  induction ps with
  | nil => rfl
  | cons p rest ih =>
    rw [scanHashes]
    cases hf : getFileHashes st p treePath cpaths with
    | ok m => simpa using ih
    | error e => simp

theorem scanHashes_all_ok {st : GitStore} {treePath : String}
    {cpaths : List String} {ps : List Nat}
    (h : ∀ p ∈ ps, exOk (getFileHashes st p treePath cpaths) = true) :
    scanHashes st treePath cpaths ps =
      (ps.map (fun p => exVal (getFileHashes st p treePath cpaths)), ps.length) := by
  induction ps with
  | nil => rfl
  | cons p rest ih =>
    rw [scanHashes]
    cases hf : getFileHashes st p treePath cpaths with
    | ok m =>
      rw [ih fun q hq => h q (List.mem_cons_of_mem _ hq)]
      simp [exVal, hf]
    | error e =>
      have := h p (List.mem_cons_self _ _)
      rw [hf] at this
      simp [exOk] at this

/-! ## Recording-loop lemmas -/

theorem recordPaths_lookup_of_some {commit : Nat} {unch : String → Bool}
    {l : List String} {results : List (String × Nat)} {rem : List String}
    {q : String} {v : Nat} (h : lookupPath results q = some v) :
    lookupPath (recordPaths commit unch l results rem).1 q = some v := by
  induction l generalizing results rem with
  | nil => exact h
  | cons path rest ih =>
    rw [recordPaths]
    by_cases hn : (lookupPath results path).isNone
    · rw [if_pos hn]
      by_cases hu : unch path
      · rw [if_pos hu]; exact ih h
      · rw [if_neg hu]; exact ih (lookupPath_append_of_some h _)
    · rw [if_neg hn]; exact ih h

theorem recordPaths_lookup_of_none_not_rec {commit : Nat} {unch : String → Bool}
    {l : List String} {results : List (String × Nat)} {rem : List String}
    {q : String} (h : lookupPath results q = none)
    (hq : q ∈ l → unch q = true) :
    lookupPath (recordPaths commit unch l results rem).1 q = none := by
  induction l generalizing results rem with
  | nil => exact h
  | cons path rest ih =>
    have htail : q ∈ rest → unch q = true :=
      fun hmem => hq (List.mem_cons_of_mem _ hmem)
    rw [recordPaths]
    by_cases hn : (lookupPath results path).isNone
    · rw [if_pos hn]
      by_cases hu : unch path
      · rw [if_pos hu]; exact ih h htail
      · rw [if_neg hu]
        have hpq : path ≠ q := by
          intro hc; subst hc
          exact hu (hq (List.mem_cons_self _ _))
        refine ih ?_ htail
        rw [lookupPath_append_of_none h, lookupPath, if_neg hpq]
        rfl
    · rw [if_neg hn]; exact ih h htail

theorem recordPaths_lookup_records {commit : Nat} {unch : String → Bool}
    {l : List String} {results : List (String × Nat)} {rem : List String}
    {q : String} (h : lookupPath results q = none) (hq : q ∈ l)
    (hu : unch q = false) :
    lookupPath (recordPaths commit unch l results rem).1 q = some commit := by
  induction l generalizing results rem with
  | nil => cases hq
  | cons path rest ih =>
    rw [recordPaths]
    by_cases hpq : path = q
    · subst hpq
      rw [if_pos (by rw [h]; rfl), if_neg (by rw [hu]; exact Bool.false_ne_true)]
      refine recordPaths_lookup_of_some ?_
      rw [lookupPath_append_of_none h, lookupPath, if_pos rfl]
    · have hqr : q ∈ rest := by
        rcases List.mem_cons.mp hq with hc | hc
        · exact absurd hc.symm hpq
        · exact hc
      by_cases hn : (lookupPath results path).isNone
      · rw [if_pos hn]
        by_cases hup : unch path
        · rw [if_pos hup]; exact ih h hqr
        · rw [if_neg hup]
          refine ih ?_ hqr
          rw [lookupPath_append_of_none h, lookupPath, if_neg hpq]
          rfl
      · rw [if_neg hn]; exact ih h hqr

theorem recordPaths_fst_mem {commit : Nat} {unch : String → Bool}
    {l : List String} {results : List (String × Nat)} {rem : List String}
    {kv : String × Nat} (h : kv ∈ (recordPaths commit unch l results rem).1) :
    kv ∈ results ∨ (kv.1 ∈ l ∧ kv.2 = commit) := by
  induction l generalizing results rem with
  | nil => exact Or.inl h
  | cons path rest ih =>
    rw [recordPaths] at h
    by_cases hn : (lookupPath results path).isNone
    · rw [if_pos hn] at h
      by_cases hu : unch path
      · rw [if_pos hu] at h
        rcases ih h with hc | hc
        · exact Or.inl hc
        · exact Or.inr ⟨List.mem_cons_of_mem _ hc.1, hc.2⟩
      · rw [if_neg hu] at h
        rcases ih h with hc | hc
        · rcases List.mem_append.mp hc with hc' | hc'
          · exact Or.inl hc'
          · rcases List.mem_singleton.mp hc' with rfl
            exact Or.inr ⟨List.mem_cons_self _ _, rfl⟩
        · exact Or.inr ⟨List.mem_cons_of_mem _ hc.1, hc.2⟩
    · rw [if_neg hn] at h
      rcases ih h with hc | hc
      · exact Or.inl hc
      · exact Or.inr ⟨List.mem_cons_of_mem _ hc.1, hc.2⟩

theorem recordPaths_snd_mem {commit : Nat} {unch : String → Bool}
    {l : List String} {results : List (String × Nat)} {rem : List String}
    {q : String} (h : q ∈ (recordPaths commit unch l results rem).2) :
    q ∈ rem ∨ (q ∈ l ∧ unch q = true) := by
  induction l generalizing results rem with
  | nil => exact Or.inl h
  | cons path rest ih =>
    rw [recordPaths] at h
    by_cases hn : (lookupPath results path).isNone
    · rw [if_pos hn] at h
      by_cases hu : unch path
      · rw [if_pos hu] at h
        rcases ih h with hc | hc
        · rcases List.mem_append.mp hc with hc' | hc'
          · exact Or.inl hc'
          · rcases List.mem_singleton.mp hc' with rfl
            exact Or.inr ⟨List.mem_cons_self _ _, hu⟩
        · exact Or.inr ⟨List.mem_cons_of_mem _ hc.1, hc.2⟩
      · rw [if_neg hu] at h
        rcases ih h with hc | hc
        · exact Or.inl hc
        · exact Or.inr ⟨List.mem_cons_of_mem _ hc.1, hc.2⟩
    · rw [if_neg hn] at h
      rcases ih h with hc | hc
      · exact Or.inl hc
      · exact Or.inr ⟨List.mem_cons_of_mem _ hc.1, hc.2⟩

theorem recordPaths_snd_of_rem {commit : Nat} {unch : String → Bool}
    {l : List String} {results : List (String × Nat)} {rem : List String}
    {q : String} (h : q ∈ rem) : q ∈ (recordPaths commit unch l results rem).2 := by
  induction l generalizing results rem with
  | nil => exact h
  | cons path rest ih =>
    rw [recordPaths]
    by_cases hn : (lookupPath results path).isNone
    · rw [if_pos hn]
      by_cases hu : unch path
      · rw [if_pos hu]
        exact ih (List.mem_append.mpr (Or.inl h))
      · rw [if_neg hu]; exact ih h
    · rw [if_neg hn]; exact ih h

theorem recordPaths_snd_of_mem {commit : Nat} {unch : String → Bool}
    {l : List String} {results : List (String × Nat)} {rem : List String}
    {q : String} (h : lookupPath results q = none) (hq : q ∈ l)
    (hu : unch q = true) : q ∈ (recordPaths commit unch l results rem).2 := by
  induction l generalizing results rem with
  | nil => cases hq
  | cons path rest ih =>
    rw [recordPaths]
    by_cases hpq : path = q
    · subst hpq
      rw [if_pos (by rw [h]; rfl), if_pos hu]
      exact recordPaths_snd_of_rem (List.mem_append.mpr (Or.inr (List.mem_singleton.mpr rfl)))
    · have hqr : q ∈ rest := by
        rcases List.mem_cons.mp hq with hc | hc
        · exact absurd hc.symm hpq
        · exact hc
      by_cases hn : (lookupPath results path).isNone
      · rw [if_pos hn]
        by_cases hup : unch path
        · rw [if_pos hup]; exact ih h hqr
        · rw [if_neg hup]
          refine ih ?_ hqr
          rw [lookupPath_append_of_none h, lookupPath, if_neg hpq]
          rfl
      · rw [if_neg hn]; exact ih h hqr

theorem recordPaths_snd_not_mem {commit : Nat} {unch : String → Bool}
    {l : List String} {results : List (String × Nat)} {rem : List String}
    {q : String} {v : Nat} (h : lookupPath results q = some v)
    (hr : q ∉ rem) : q ∉ (recordPaths commit unch l results rem).2 := by
  induction l generalizing results rem with
  | nil => exact hr
  | cons path rest ih =>
    rw [recordPaths]
    by_cases hn : (lookupPath results path).isNone
    · have hpq : path ≠ q := by
        intro hc; subst hc
        rw [h] at hn
        simp at hn
      rw [if_pos hn]
      by_cases hu : unch path
      · rw [if_pos hu]
        refine ih h ?_
        intro hc
        rcases List.mem_append.mp hc with hc' | hc'
        · exact hr hc'
        · exact hpq (List.mem_singleton.mp hc').symm
      · rw [if_neg hu]
        exact ih (lookupPath_append_of_some h _) hr
    · rw [if_neg hn]; exact ih h hr

theorem recordPaths_snd_length (commit : Nat) (unch : String → Bool)
    (l : List String) (results : List (String × Nat)) (rem : List String) :
    (recordPaths commit unch l results rem).2.length ≤ rem.length + l.length := by
  induction l generalizing results rem with
  | nil => simp [recordPaths]
  | cons path rest ih =>
    rw [recordPaths]
    by_cases hn : (lookupPath results path).isNone
    · rw [if_pos hn]
      by_cases hu : unch path
      · rw [if_pos hu]
        calc (recordPaths commit unch rest results (rem ++ [path])).2.length
            ≤ (rem ++ [path]).length + rest.length := ih _ _
          _ = rem.length + (path :: rest).length := by
              simp [List.length_append]; omega
      · rw [if_neg hu]
        calc (recordPaths commit unch rest (results ++ [(path, commit)]) rem).2.length
            ≤ rem.length + rest.length := ih _ _
          _ ≤ rem.length + (path :: rest).length := by simp only [List.length_cons]; omega
    · rw [if_neg hn]
      calc (recordPaths commit unch rest results rem).2.length
          ≤ rem.length + rest.length := ih _ _
        _ ≤ rem.length + (path :: rest).length := by simp only [List.length_cons]; omega

/-! ## Push-loop lemmas -/

theorem pushList_paths_sub {curHashes : List (String × Nat)} {ps : List Nat}
    {ms : List (List (String × Nat))} {rem : List String} {e : commitAndPaths}
    (he : e ∈ pushList curHashes ps ms rem) {q : String} (hq : q ∈ e.paths) :
    q ∈ rem := by
  induction ps generalizing ms rem with
  | nil => cases he
  | cons p ps' ih =>
    cases ms with
    | nil => cases he
    | cons m ms' =>
      rw [pushList] at he
      rcases List.mem_cons.mp he with hc | hc
      · subst hc
        exact (List.mem_filter.mp hq).1
      · by_cases hne : (rem.filter (fun path => !(hashOf m path == hashOf curHashes path))).isEmpty
        · rw [if_pos hne] at hc; cases hc
        · rw [if_neg hne] at hc
          exact (List.mem_filter.mp (ih hc)).1

theorem pushList_commit_mem {curHashes : List (String × Nat)} {ps : List Nat}
    {ms : List (List (String × Nat))} {rem : List String} {e : commitAndPaths}
    (he : e ∈ pushList curHashes ps ms rem) : e.commit ∈ ps := by
  induction ps generalizing ms rem with
  | nil => cases he
  | cons p ps' ih =>
    cases ms with
    | nil => cases he
    | cons m ms' =>
      rw [pushList] at he
      rcases List.mem_cons.mp he with hc | hc
      · subst hc; exact List.mem_cons_self _ _
      · by_cases hne : (rem.filter (fun path => !(hashOf m path == hashOf curHashes path))).isEmpty
        · rw [if_pos hne] at hc; cases hc
        · rw [if_neg hne] at hc
          exact List.mem_cons_of_mem _ (ih hc)

theorem pushList_deposits {curHashes : List (String × Nat)} {ps : List Nat}
    {ms : List (List (String × Nat))} {rem : List String} {q : String}
    (hq : q ∈ rem) {j : Nat} {m : List (String × Nat)}
    (hjm : ms[j]? = some m) (hjp : j < ps.length)
    (hmatch : hashOf m q = hashOf curHashes q) :
    ∃ e ∈ pushList curHashes ps ms rem, q ∈ e.paths := by
  induction j generalizing ps ms rem with
  | zero =>
    cases ms with
    | nil => cases hjm
    | cons m0 ms' =>
      cases ps with
      | nil => cases hjp
      | cons p0 ps' =>
        simp only [List.getElem?_cons_zero, Option.some.injEq] at hjm
        subst hjm
        refine ⟨⟨p0, rem.filter (fun path => hashOf m0 path == hashOf curHashes path), m0⟩,
          List.mem_cons_self _ _, ?_⟩
        exact List.mem_filter.mpr ⟨hq, by simp [hmatch]⟩
  | succ j' ih =>
    cases ms with
    | nil => cases hjm
    | cons m0 ms' =>
      cases ps with
      | nil => cases hjp
      | cons p0 ps' =>
        simp only [List.getElem?_cons_succ] at hjm
        by_cases hm0 : hashOf m0 q = hashOf curHashes q
        · refine ⟨⟨p0, rem.filter (fun path => hashOf m0 path == hashOf curHashes path), m0⟩,
            List.mem_cons_self _ _, ?_⟩
          exact List.mem_filter.mpr ⟨hq, by simp [hm0]⟩
        · have hqn : q ∈ rem.filter (fun path => !(hashOf m0 path == hashOf curHashes path)) :=
            List.mem_filter.mpr ⟨hq, by simp [hm0]⟩
          have hne : ¬(rem.filter (fun path => !(hashOf m0 path == hashOf curHashes path))).isEmpty := by
            intro hc
            rw [List.isEmpty_iff] at hc
            rw [hc] at hqn
            cases hqn
          obtain ⟨e, he, hqe⟩ := ih hqn hjm (Nat.lt_of_succ_lt_succ hjp)
          exact ⟨e, by rw [pushList, if_neg hne]; exact List.mem_cons_of_mem _ he, hqe⟩

theorem pushList_get_first_match {curHashes : List (String × Nat)} {ps : List Nat}
    {ms : List (List (String × Nat))} {rem : List String} {q : String}
    (hq : q ∈ rem) {j : Nat} {mj : List (String × Nat)}
    (hjm : ms[j]? = some mj) (hjp : j < ps.length)
    (hmatch : hashOf mj q = hashOf curHashes q)
    (hfirst : ∀ i, i < j → ∀ mi, ms[i]? = some mi → hashOf mi q ≠ hashOf curHashes q) :
    (∃ e, (pushList curHashes ps ms rem)[j]? = some e ∧ ps[j]? = some e.commit ∧
      e.hashes = mj ∧ q ∈ e.paths) ∧
    (∀ i e, (pushList curHashes ps ms rem)[i]? = some e → i ≠ j → q ∉ e.paths) := by
  induction j generalizing ps ms rem with
  | zero =>
    cases ms with
    | nil => cases hjm
    | cons m0 ms' =>
      cases ps with
      | nil => cases hjp
      | cons p0 ps' =>
        simp only [List.getElem?_cons_zero, Option.some.injEq] at hjm
        subst hjm
        constructor
        · refine ⟨⟨p0, rem.filter (fun path => hashOf m0 path == hashOf curHashes path), m0⟩,
            by rw [pushList]; simp, by simp, rfl, ?_⟩
          exact List.mem_filter.mpr ⟨hq, by simp [hmatch]⟩
        · intro i e hie hne hqe
          rw [pushList] at hie
          cases i with
          | zero => exact hne rfl
          | succ i' =>
            rw [List.getElem?_cons_succ] at hie
            by_cases hemp : (rem.filter (fun path => !(hashOf m0 path == hashOf curHashes path))).isEmpty
            · rw [if_pos hemp] at hie; cases hie
            · rw [if_neg hemp] at hie
              have hmem : e ∈ pushList curHashes ps' ms'
                  (rem.filter (fun path => !(hashOf m0 path == hashOf curHashes path))) :=
                List.getElem?_mem hie
              have := pushList_paths_sub hmem hqe
              rcases List.mem_filter.mp this with ⟨-, hbad⟩
              simp [hmatch] at hbad
  | succ j' ih =>
    cases ms with
    | nil => cases hjm
    | cons m0 ms' =>
      cases ps with
      | nil => cases hjp
      | cons p0 ps' =>
        simp only [List.getElem?_cons_succ] at hjm
        have hm0 : hashOf m0 q ≠ hashOf curHashes q :=
          hfirst 0 (Nat.succ_pos _) m0 (by simp)
        have hqn : q ∈ rem.filter (fun path => !(hashOf m0 path == hashOf curHashes path)) :=
          List.mem_filter.mpr ⟨hq, by simp [hm0]⟩
        have hne : ¬(rem.filter (fun path => !(hashOf m0 path == hashOf curHashes path))).isEmpty := by
          intro hc
          rw [List.isEmpty_iff] at hc
          rw [hc] at hqn
          cases hqn
        have hfirst' : ∀ i, i < j' → ∀ mi, ms'[i]? = some mi →
            hashOf mi q ≠ hashOf curHashes q := by
          intro i hi mi hmi
          exact hfirst (i + 1) (Nat.succ_lt_succ hi) mi (by rw [List.getElem?_cons_succ]; exact hmi)
        obtain ⟨⟨e, hje, hpe, hme, hqe⟩, huniq⟩ :=
          ih hqn hjm (Nat.lt_of_succ_lt_succ hjp) hfirst'
        constructor
        · refine ⟨e, ?_, ?_, hme, hqe⟩
          · rw [pushList, if_neg hne, List.getElem?_cons_succ]
            exact hje
          · rw [List.getElem?_cons_succ]
            exact hpe
        · intro i e' hie hine hqe'
          rw [pushList, if_neg hne] at hie
          cases i with
          | zero =>
            simp only [List.getElem?_cons_zero, Option.some.injEq] at hie
            subst hie
            rcases List.mem_filter.mp hqe' with ⟨-, hbad⟩
            simp [hm0] at hbad
          | succ i' =>
            rw [List.getElem?_cons_succ] at hie
            exact huniq i' e' hie (fun hc => hine (by rw [hc])) hqe'

theorem pushList_countP_head_match {curHashes : List (String × Nat)} {p0 : Nat}
    {ps' : List Nat} {m0 : List (String × Nat)} {ms' : List (List (String × Nat))}
    {rem : List String} {q : String} (hq : q ∈ rem)
    (hmatch : hashOf m0 q = hashOf curHashes q) :
    (pushList curHashes (p0 :: ps') (m0 :: ms') rem).countP
      (fun e => decide (q ∈ e.paths)) = 1 := by
  rw [pushList, List.countP_cons]
  have hhead : q ∈ rem.filter (fun path => hashOf m0 path == hashOf curHashes path) :=
    List.mem_filter.mpr ⟨hq, by simp [hmatch]⟩
  have htail : (if (rem.filter (fun path => !(hashOf m0 path == hashOf curHashes path))).isEmpty
      then ([] : List commitAndPaths)
      else pushList curHashes ps' ms'
        (rem.filter (fun path => !(hashOf m0 path == hashOf curHashes path)))).countP
      (fun e => decide (q ∈ e.paths)) = 0 := by
    rw [List.countP_eq_zero]
    intro e he
    by_cases hemp : (rem.filter (fun path => !(hashOf m0 path == hashOf curHashes path))).isEmpty
    · rw [if_pos hemp] at he; cases he
    · rw [if_neg hemp] at he
      simp only [decide_eq_true_eq]
      intro hqe
      rcases List.mem_filter.mp (pushList_paths_sub he hqe) with ⟨-, hbad⟩
      simp [hmatch] at hbad
  rw [htail]
  simp [hhead]

theorem pushList_countP_eq_one {curHashes : List (String × Nat)} {ps : List Nat}
    {ms : List (List (String × Nat))} {rem : List String} {q : String}
    (hq : q ∈ rem) {j : Nat} {mj : List (String × Nat)}
    (hjm : ms[j]? = some mj) (hjp : j < ps.length)
    (hmatch : hashOf mj q = hashOf curHashes q) :
    (pushList curHashes ps ms rem).countP (fun e => decide (q ∈ e.paths)) = 1 := by
  induction j generalizing ps ms rem with
  | zero =>
    cases ms with
    | nil => cases hjm
    | cons m0 ms' =>
      cases ps with
      | nil => cases hjp
      | cons p0 ps' =>
        simp only [List.getElem?_cons_zero, Option.some.injEq] at hjm
        subst hjm
        exact pushList_countP_head_match hq hmatch
  | succ j' ih =>
    cases ms with
    | nil => cases hjm
    | cons m0 ms' =>
      cases ps with
      | nil => cases hjp
      | cons p0 ps' =>
        simp only [List.getElem?_cons_succ] at hjm
        by_cases hm0 : hashOf m0 q = hashOf curHashes q
        · exact pushList_countP_head_match hq hm0
        · have hqn : q ∈ rem.filter (fun path => !(hashOf m0 path == hashOf curHashes path)) :=
            List.mem_filter.mpr ⟨hq, by simp [hm0]⟩
          have hne : ¬(rem.filter (fun path => !(hashOf m0 path == hashOf curHashes path))).isEmpty := by
            intro hc
            rw [List.isEmpty_iff] at hc
            rw [hc] at hqn
            cases hqn
          rw [pushList, if_neg hne, List.countP_cons]
          have hhead : ¬ q ∈ rem.filter (fun path => hashOf m0 path == hashOf curHashes path) := by
            intro hc
            rcases List.mem_filter.mp hc with ⟨-, hbad⟩
            simp [hm0] at hbad
          rw [ih hqn hjm (Nat.lt_of_succ_lt_succ hjp)]
          simp [hhead]

theorem pushList_wHeap_le {B : Nat} (hB : 1 ≤ B) {cexp : Nat}
    {curHashes : List (String × Nat)} {ps : List Nat}
    {ms : List (List (String × Nat))} {rem : List String}
    (hps : ∀ p ∈ ps, p + 1 ≤ cexp) :
    wHeap B (pushList curHashes ps ms rem) ≤ (rem.length + ps.length) * B ^ cexp := by
  induction ps generalizing ms rem with
  | nil => simp [pushList, wHeap]
  | cons p0 ps' ih =>
    cases ms with
    | nil => simp [pushList, wHeap]
    | cons m0 ms' =>
      rw [pushList]
      have hp0 : p0 + 1 ≤ cexp := hps p0 (List.mem_cons_self _ _)
      have hpow : B ^ (p0 + 1) ≤ B ^ cexp := Nat.pow_le_pow_right hB hp0
      have hsplit : (rem.filter (fun path => hashOf m0 path == hashOf curHashes path)).length +
          (rem.filter (fun path => !(hashOf m0 path == hashOf curHashes path))).length =
          rem.length :=
        (List.length_eq_length_filter_add (fun path => hashOf m0 path == hashOf curHashes path)).symm
      have hhead : wEntry B ⟨p0, rem.filter (fun path => hashOf m0 path == hashOf curHashes path), m0⟩ ≤
          ((rem.filter (fun path => hashOf m0 path == hashOf curHashes path)).length + 1) *
            B ^ cexp := by
        rw [wEntry]
        exact Nat.mul_le_mul_left _ hpow
      by_cases hemp : (rem.filter (fun path => !(hashOf m0 path == hashOf curHashes path))).isEmpty
      · rw [if_pos hemp]
        have : wHeap B [⟨p0, rem.filter (fun path => hashOf m0 path == hashOf curHashes path), m0⟩] =
            wEntry B ⟨p0, rem.filter (fun path => hashOf m0 path == hashOf curHashes path), m0⟩ := by
          simp [wHeap]
        rw [this]
        calc wEntry B ⟨p0, rem.filter (fun path => hashOf m0 path == hashOf curHashes path), m0⟩
            ≤ ((rem.filter (fun path => hashOf m0 path == hashOf curHashes path)).length + 1) *
              B ^ cexp := hhead
          _ ≤ (rem.length + (p0 :: ps').length) * B ^ cexp := by
              refine Nat.mul_le_mul_right _ ?_
              simp only [List.length_cons]
              omega
      · rw [if_neg hemp]
        have htail : wHeap B (pushList curHashes ps' ms'
            (rem.filter (fun path => !(hashOf m0 path == hashOf curHashes path)))) ≤
            ((rem.filter (fun path => !(hashOf m0 path == hashOf curHashes path))).length +
              ps'.length) * B ^ cexp :=
          ih (fun p hp => hps p (List.mem_cons_of_mem _ hp))
        have hw : wHeap B (⟨p0, rem.filter (fun path => hashOf m0 path == hashOf curHashes path), m0⟩ ::
            pushList curHashes ps' ms'
              (rem.filter (fun path => !(hashOf m0 path == hashOf curHashes path)))) =
            wEntry B ⟨p0, rem.filter (fun path => hashOf m0 path == hashOf curHashes path), m0⟩ +
            wHeap B (pushList curHashes ps' ms'
              (rem.filter (fun path => !(hashOf m0 path == hashOf curHashes path)))) := by
          simp [wHeap]
        rw [hw]
        calc wEntry B ⟨p0, rem.filter (fun path => hashOf m0 path == hashOf curHashes path), m0⟩ +
            wHeap B (pushList curHashes ps' ms'
              (rem.filter (fun path => !(hashOf m0 path == hashOf curHashes path))))
            ≤ ((rem.filter (fun path => hashOf m0 path == hashOf curHashes path)).length + 1) *
                B ^ cexp +
              ((rem.filter (fun path => !(hashOf m0 path == hashOf curHashes path))).length +
                ps'.length) * B ^ cexp := Nat.add_le_add hhead htail
          _ = ((rem.filter (fun path => hashOf m0 path == hashOf curHashes path)).length + 1 +
              ((rem.filter (fun path => !(hashOf m0 path == hashOf curHashes path))).length +
                ps'.length)) * B ^ cexp := by ring
          _ = (rem.length + (p0 :: ps').length) * B ^ cexp := by
              refine congrArg (· * B ^ cexp) ?_
              simp only [List.length_cons]
              omega

/-! ## Loop-iteration lemmas -/

theorem loopN_heap_empty {st : GitStore} {treePath : String} {s : LoopState}
    (h : s.heap = []) (n : Nat) : loopN st treePath n s = s := by
  cases n with
  | zero => rfl
  | succ n' => rw [loopN, if_pos (by rw [h]; rfl)]

theorem loopN_add (st : GitStore) (treePath : String) (a b : Nat) (s : LoopState) :
    loopN st treePath (a + b) s = loopN st treePath b (loopN st treePath a s) := by
  induction a generalizing s with
  | zero => rw [Nat.zero_add]; rfl
  | succ a' ih =>
    have hs : a' + 1 + b = (a' + b) + 1 := by omega
    rw [hs, loopN, loopN]
    by_cases hemp : s.heap.isEmpty
    · rw [if_pos hemp, if_pos hemp]
      exact (loopN_heap_empty (List.isEmpty_iff.mp hemp) b).symm
    · rw [if_neg hemp, if_neg hemp]
      exact ih _

theorem loopN_inv {st : GitStore} {treePath : String} (P : LoopState → Prop)
    (hstep : ∀ s, P s → P (stepLoop st treePath s)) (s : LoopState) (hs : P s)
    (n : Nat) : P (loopN st treePath n s) := by
  induction n generalizing s with
  | zero => exact hs
  | succ n' ih =>
    rw [loopN]
    by_cases hemp : s.heap.isEmpty
    · rw [if_pos hemp]; exact hs
    · rw [if_neg hemp]; exact ih _ (hstep s hs)

/-! ## Small utilities -/

theorem exVal_ok {ε : Type} {x : Except ε (List (String × Nat))}
    (h : exOk x = true) : x = .ok (exVal x) := by
  cases x with
  | ok m => rfl
  | error e => simp [exOk] at h

theorem scanHashes_snd_le (st : GitStore) (treePath : String)
    (cpaths : List String) (ps : List Nat) :
    (scanHashes st treePath cpaths ps).2 ≤ ps.length := by
  induction ps with
  | nil => exact Nat.le_refl _
  | cons p rest ih =>
    rw [scanHashes]
    cases hf : getFileHashes st p treePath cpaths with
    | ok m => simpa using ih
    | error e => simp

theorem collectParents_length_le (l : List (Except Unit Nat)) :
    (collectParents l).length ≤ l.length := by
  induction l with
  | nil => exact Nat.le_refl _
  | cons x rest ih =>
    cases x with
    | ok q => simpa [collectParents] using ih
    | error e => simp [collectParents]

theorem wEntry_pos {B : Nat} (hB : 1 ≤ B) (e : commitAndPaths) : 1 ≤ wEntry B e := by
  rw [wEntry]
  exact Nat.mul_pos (Nat.succ_pos _) (Nat.pos_pow_of_pos _ hB)

theorem wHeap_eq_nil {B : Nat} (hB : 1 ≤ B) {h : List commitAndPaths}
    (hw : wHeap B h = 0) : h = [] := by
  cases h with
  | nil => rfl
  | cons e rest =>
    exfalso
    rw [wHeap, List.map_cons, List.sum_cons] at hw
    have := wEntry_pos hB e
    omega

theorem wHeap_append (B : Nat) (h h' : List commitAndPaths) :
    wHeap B (h ++ h') = wHeap B h + wHeap B h' := by
  rw [wHeap, wHeap, wHeap, List.map_append, List.sum_append]

theorem wHeap_perm {B : Nat} {h h' : List commitAndPaths} (hp : h.Perm h') :
    wHeap B h = wHeap B h' := (hp.map (wEntry B)).sum_eq

theorem Reach_trans {st : GitStore} {a b c : Nat} (h1 : Reach st a b)
    (h2 : Reach st b c) : Reach st a c := by
  induction h2 with
  | refl => exact h1
  | step hr hp ih => exact Reach.step ih hp

theorem postProcess_ok_eq {st : GitStore} {l r : List (String × Nat)}
    (h : postProcess st l = .ok r) : r = l := by
  induction l generalizing r with
  | nil => cases h; rfl
  | cons kv rest ih =>
    obtain ⟨p, d⟩ := kv
    rw [postProcess] at h
    cases hc : (st d).commitObj with
    | error e => rw [hc] at h; cases h
    | ok u =>
      rw [hc] at h
      cases hr : postProcess st rest with
      | error e => rw [hr] at h; cases h
      | ok r' =>
        rw [hr] at h
        cases h
        rw [ih hr]

theorem postProcess_ok_of {st : GitStore} {l : List (String × Nat)}
    (h : ∀ kv ∈ l, exOk (st kv.2).commitObj = true) : postProcess st l = .ok l := by
  induction l with
  | nil => rfl
  | cons kv rest ih =>
    obtain ⟨p, d⟩ := kv
    rw [postProcess]
    cases hc : (st d).commitObj with
    | error e =>
      have := h (p, d) (List.mem_cons_self _ _)
      rw [hc] at this
      simp [exOk] at this
    | ok u =>
      rw [ih fun kv hkv => h kv (List.mem_cons_of_mem _ hkv)]

/-! ## Extraction lemmas for the boolean store predicates -/

theorem goodParents_topo {st : GitStore} {n B : Nat} (h : goodParents st n B = true)
    {d : Nat} (hd : d ≤ n) {p : Nat}
    (hp : Except.ok p ∈ (st d).parents) : p < d := by
  rw [goodParents, List.all_eq_true] at h
  have hd' := h d (List.mem_range.mpr (Nat.lt_succ_of_le hd))
  rw [Bool.and_eq_true] at hd'
  have := (List.all_eq_true.mp hd'.2) _ hp
  simpa using this

theorem goodParents_len {st : GitStore} {n B : Nat} (h : goodParents st n B = true)
    {d : Nat} (hd : d ≤ n) : (st d).parents.length + 2 ≤ B := by
  rw [goodParents, List.all_eq_true] at h
  have hd' := h d (List.mem_range.mpr (Nat.lt_succ_of_le hd))
  rw [Bool.and_eq_true] at hd'
  simpa using hd'.1

theorem goodParents_two_le {st : GitStore} {n B : Nat}
    (h : goodParents st n B = true) : 2 ≤ B := by
  have := goodParents_len h (Nat.zero_le n)
  omega

theorem parentsAllOk_spec {st : GitStore} {n : Nat} (h : parentsAllOk st n = true)
    {d : Nat} (hd : d ≤ n) {x : Except Unit Nat}
    (hx : x ∈ (st d).parents) : ∃ p, x = .ok p := by
  rw [parentsAllOk, List.all_eq_true] at h
  have hd' := h d (List.mem_range.mpr (Nat.lt_succ_of_le hd))
  have := (List.all_eq_true.mp hd') _ hx
  cases x with
  | ok p => exact ⟨p, rfl⟩
  | error e => simp [exOk] at this

theorem treesOk_fileHashes {st : GitStore} {treePath : String} {n : Nat}
    (h : treesOk st treePath n = true) {d : Nat} (hd : d ≤ n)
    (ps : List String) : exOk (getFileHashes st d treePath ps) = true := by
  rw [treesOk, List.all_eq_true] at h
  have hd' := h d (List.mem_range.mpr (Nat.lt_succ_of_le hd))
  rw [getFileHashes]
  cases hct : getCommitTree st d treePath with
  | ok t => rfl
  | error e =>
    cases e with
    | directoryNotFound => rfl
    | ioError => rw [hct] at hd'; simp at hd'

theorem commitsOk_obj {st : GitStore} {n : Nat} (h : commitsOk st n = true)
    {d : Nat} (hd : d ≤ n) : (st d).commitObj = .ok () := by
  rw [commitsOk, List.all_eq_true] at h
  have hd' := h d (List.mem_range.mpr (Nat.lt_succ_of_le hd))
  cases hc : (st d).commitObj with
  | ok u => cases u; rfl
  | error e => rw [hc] at hd'; simp [exOk] at hd'

/-! ## First-parent root lemmas -/

theorem fpRootAux_stable {st : GitStore} {n : Nat}
    (htopo : ∀ d ≤ n, ∀ p, Except.ok p ∈ (st d).parents → p < d) :
    ∀ d, d ≤ n → ∀ f, d + 1 ≤ f → fpRootAux st f d = fpRoot st d := by
  intro d
  induction d using Nat.strong_induction_on with
  | _ d ih =>
    intro hd f hf
    obtain ⟨f', rfl⟩ : ∃ f', f = f' + 1 := ⟨f - 1, by omega⟩
    rw [fpRoot]
    cases hps : (st d).parents with
    | nil => rw [fpRootAux, hps, fpRootAux, hps]
    | cons x tail =>
      cases x with
      | error e => rw [fpRootAux, hps, fpRootAux, hps]
      | ok p =>
        have hpd : p < d := htopo d hd p (by rw [hps]; exact List.mem_cons_self _ _)
        rw [fpRootAux, hps]
        conv_rhs => rw [show d + 1 = d + 1 from rfl, fpRootAux, hps]
        dsimp only
        have h1 : fpRootAux st f' p = fpRoot st p :=
          ih p hpd (Nat.le_trans (Nat.le_of_lt hpd) hd) f' (by omega)
        have h2 : fpRootAux st d p = fpRoot st p :=
          ih p hpd (Nat.le_trans (Nat.le_of_lt hpd) hd) d (by omega)
        rw [h1, h2]

theorem fpRoot_of_nil {st : GitStore} {d : Nat} (h : (st d).parents = []) :
    fpRoot st d = d := by
  rw [fpRoot, fpRootAux, h]

theorem fpRoot_head_ok {st : GitStore} {n : Nat}
    (htopo : ∀ d ≤ n, ∀ p, Except.ok p ∈ (st d).parents → p < d)
    {d : Nat} (hd : d ≤ n) {p : Nat} {tail : List (Except Unit Nat)}
    (hps : (st d).parents = Except.ok p :: tail) : fpRoot st d = fpRoot st p := by
  have hpd : p < d := htopo d hd p (by rw [hps]; exact List.mem_cons_self _ _)
  rw [fpRoot, fpRootAux, hps]
  dsimp only
  exact fpRootAux_stable htopo p (Nat.le_trans (Nat.le_of_lt hpd) hd) d (by omega)

theorem fpRoot_props {st : GitStore} {n : Nat}
    (htopo : ∀ d ≤ n, ∀ p, Except.ok p ∈ (st d).parents → p < d)
    (hallok : ∀ d ≤ n, ∀ x ∈ (st d).parents, ∃ p, x = Except.ok p) :
    ∀ d, d ≤ n →
      (st (fpRoot st d)).parents = [] ∧ Reach st d (fpRoot st d) ∧ fpRoot st d ≤ d := by
  intro d
  induction d using Nat.strong_induction_on with
  | _ d ih =>
    intro hd
    cases hps : (st d).parents with
    | nil => rw [fpRoot_of_nil hps]; exact ⟨hps, Reach.refl d, Nat.le_refl d⟩
    | cons x tail =>
      obtain ⟨p, rfl⟩ := hallok d hd x (by rw [hps]; exact List.mem_cons_self _ _)
      have hpd : p < d := htopo d hd p (by rw [hps]; exact List.mem_cons_self _ _)
      have heq : fpRoot st d = fpRoot st p := fpRoot_head_ok htopo hd hps
      obtain ⟨h1, h2, h3⟩ := ih p hpd (Nat.le_trans (Nat.le_of_lt hpd) hd)
      refine ⟨by rw [heq]; exact h1, ?_, by omega⟩
      rw [heq]
      refine Reach_trans ?_ h2
      exact Reach.step (Reach.refl d) (by rw [hps]; exact List.mem_cons_self _ _)

/-! ## Step-level lemmas -/

theorem stepLoop_of_pop {st : GitStore} {treePath : String} {s : LoopState}
    {current : commitAndPaths} {rest : List commitAndPaths}
    (hpop : popMax st s.heap = some (current, rest)) :
    stepLoop st treePath s =
      ⟨rest ++ stepPushes st treePath current s.results,
       (stepRecord st treePath current s.results).1⟩ := by
  rw [stepLoop, hpop]

theorem popMax_of_ne_nil {st : GitStore} {h : List commitAndPaths} (hne : h ≠ []) :
    ∃ cur rest, popMax st h = some (cur, rest) := by
  cases hp : popMax st h with
  | none => exact absurd (popMax_eq_none.mp hp) hne
  | some pr =>
    obtain ⟨cur, rest⟩ := pr
    exact ⟨cur, rest, rfl⟩

theorem any_map_eq {α β : Type} (l : List α) (f : α → β) (p : β → Bool) :
    (l.map f).any p = l.any (fun a => p (f a)) := by
  induction l with
  | nil => rfl
  | cons x rest ih => simp [ih]

theorem stepScan_all_ok {st : GitStore} {treePath : String} {cur : commitAndPaths}
    (hok : ∀ p ∈ stepParents st cur, exOk (getFileHashes st p treePath cur.paths) = true) :
    stepScan st treePath cur =
      ((stepParents st cur).map (fun p => exVal (getFileHashes st p treePath cur.paths)),
       (stepParents st cur).length) :=
  scanHashes_all_ok hok

theorem stepUnch_of_ok {st : GitStore} {treePath : String} {cur : commitAndPaths}
    (hok : ∀ p ∈ stepParents st cur, exOk (getFileHashes st p treePath cur.paths) = true)
    (path : String) :
    stepUnch st treePath cur path =
      (stepParents st cur).any (fun p =>
        hashOf (exVal (getFileHashes st p treePath cur.paths)) path ==
          hashOf cur.hashes path) := by
  rw [stepUnch, stepScan_all_ok hok]
  have hlen : (stepParents st cur).length =
      ((stepParents st cur).map
        (fun p => exVal (getFileHashes st p treePath cur.paths))).length := by simp
  rw [hlen, List.take_length, any_map_eq]

/-- Claim C5: when a commit is popped, a path that is not already in the
result map is recorded for the popped commit exactly when its hash at the
popped commit differs from its hash at every parent (assuming the parents'
hash fetches succeed); in particular a merge commit whose hash matches no
parent becomes the path's result. -/
theorem stepLoop_records_iff {st : GitStore} {treePath : String} {s : LoopState}
    {current : commitAndPaths} {rest : List commitAndPaths}
    (hpop : popMax st s.heap = some (current, rest))
    {path : String} (hmem : path ∈ current.paths)
    (hnew : lookupPath s.results path = none)
    (hok : ∀ p ∈ stepParents st current,
      exOk (getFileHashes st p treePath current.paths) = true) :
    lookupPath (stepLoop st treePath s).results path = some current.commit ↔
      ∀ p ∈ stepParents st current,
        hashOf (exVal (getFileHashes st p treePath current.paths)) path ≠
          hashOf current.hashes path := by
  rw [stepLoop_of_pop hpop]
  dsimp only
  constructor
  · intro hrec p hp hmatch
    have hu : stepUnch st treePath current path = true := by
      rw [stepUnch_of_ok hok, List.any_eq_true]
      exact ⟨p, hp, by simp [hmatch]⟩
    have hnone : lookupPath (stepRecord st treePath current s.results).1 path = none :=
      recordPaths_lookup_of_none_not_rec hnew (fun _ => hu)
    rw [hnone] at hrec
    cases hrec
  · intro hall
    have hu : stepUnch st treePath current path = false := by
      rw [stepUnch_of_ok hok]
      rw [Bool.eq_false_iff]
      intro hc
      rw [List.any_eq_true] at hc
      obtain ⟨p, hp, hb⟩ := hc
      exact hall p hp (by simpa using hb)
    exact recordPaths_lookup_records hnew hmem hu

/-- Witness for claim C5 on `storeLinear`: popping the start commit 2 with
path `a` (hash 4, parent hash 1) records commit 2 for `a`. -/
theorem stepLoop_records_iff_witness :
    lookupPath (stepLoop storeLinear ""
      ⟨[⟨2, ["a", "b"], [("a", 4), ("b", 3)]⟩], []⟩).results "a" = some 2 := by
  have h := @stepLoop_records_iff storeLinear ""
    ⟨[⟨2, ["a", "b"], [("a", 4), ("b", 3)]⟩], []⟩
    ⟨2, ["a", "b"], [("a", 4), ("b", 3)]⟩ []
    rfl "a" (by decide) rfl (by decide)
  exact h.mpr (by decide)

/-- Claim C6: a path that continues past the popped commit is handed to
exactly one parent entry — the one at the first parent index whose hash for
the path equals the popped commit's hash — and to no entry of any other
index, even when later parents also match. -/
theorem stepLoop_first_matching_parent {st : GitStore} {treePath : String}
    {s : LoopState} {current : commitAndPaths} {rest : List commitAndPaths}
    (_hpop : popMax st s.heap = some (current, rest))
    {path : String} (hrem : path ∈ (stepRecord st treePath current s.results).2)
    (hok : ∀ p ∈ stepParents st current,
      exOk (getFileHashes st p treePath current.paths) = true)
    {j : Nat} {pj : Nat} (hj : (stepParents st current)[j]? = some pj)
    (hmatch : hashOf (exVal (getFileHashes st pj treePath current.paths)) path =
      hashOf current.hashes path)
    (hfirst : ∀ i pi, i < j → (stepParents st current)[i]? = some pi →
      hashOf (exVal (getFileHashes st pi treePath current.paths)) path ≠
        hashOf current.hashes path) :
    (∃ e, (stepPushes st treePath current s.results)[j]? = some e ∧
      e.commit = pj ∧ path ∈ e.paths) ∧
    (∀ i e, (stepPushes st treePath current s.results)[i]? = some e → i ≠ j →
      path ∉ e.paths) := by
  have hemp : ¬ (stepRecord st treePath current s.results).2.isEmpty := by
    intro hc
    rw [List.isEmpty_iff] at hc
    rw [hc] at hrem
    cases hrem
  have hjp : j < (stepParents st current).length := by
    by_contra hc
    rw [List.getElem?_eq_none (Nat.le_of_not_lt hc)] at hj
    cases hj
  have hms : (stepScan st treePath current).1 =
      (stepParents st current).map
        (fun p => exVal (getFileHashes st p treePath current.paths)) := by
    rw [stepScan_all_ok hok]
  have hjm : (stepScan st treePath current).1[j]? =
      some (exVal (getFileHashes st pj treePath current.paths)) := by
    rw [hms, List.getElem?_map, hj]
    rfl
  have hfirst' : ∀ i, i < j → ∀ mi, (stepScan st treePath current).1[i]? = some mi →
      hashOf mi path ≠ hashOf current.hashes path := by
    intro i hi mi hmi
    rw [hms, List.getElem?_map] at hmi
    cases hpi : (stepParents st current)[i]? with
    | none => rw [hpi] at hmi; cases hmi
    | some pi =>
      rw [hpi] at hmi
      simp only [Option.map_some'] at hmi
      cases hmi
      exact hfirst i pi hi hpi
  obtain ⟨⟨e, he, hpe, hme, hqe⟩, huniq⟩ :=
    pushList_get_first_match hrem hjm hjp hmatch hfirst'
  rw [stepPushes, if_neg hemp]
  refine ⟨⟨e, he, ?_, hqe⟩, ?_⟩
  · rw [hj] at hpe
    cases hpe
    rfl
  · intro i e' hie hine
    exact huniq i e' hie hine

/-- Witness for claim C6 on `storeBothMatch`: at the merge commit 3 the hash
of `a` matches both parents 1 and 2; the push list hands `a` to the entry of
parent 1 (index 0) and to no other entry. -/
theorem stepLoop_first_matching_parent_witness :
    ∃ e, (stepPushes storeBothMatch "" ⟨3, ["a"], [("a", 5)]⟩ [])[0]? = some e ∧
      e.commit = 1 ∧ "a" ∈ e.paths ∧
      ∀ i e', (stepPushes storeBothMatch "" ⟨3, ["a"], [("a", 5)]⟩ [])[i]? = some e' →
        i ≠ 0 → "a" ∉ e'.paths := by
  obtain ⟨⟨e, h1, h2, h3⟩, h4⟩ := @stepLoop_first_matching_parent storeBothMatch ""
    ⟨[⟨3, ["a"], [("a", 5)]⟩], []⟩ ⟨3, ["a"], [("a", 5)]⟩ []
    rfl "a" (by decide) (by decide) 0 1 (by decide) (by decide)
    (fun i pi hi => absurd hi (Nat.not_lt_zero i))
  exact ⟨e, h1, h2, h3, h4⟩

/-- Claim C3 (falsified by the code): at the merge commit of `storeMerge`
the hash of `a` matches only the second parent, so the first parent matches
no remaining path — yet an entry with an empty path list is pushed for it,
because `make([]string, 0, n)` is never nil and the guard in the source
cannot fire.  After one loop step the heap holds that empty-path entry. -/
theorem emptyPathEntry_pushed :
    (stepLoop storeMerge "" ⟨[⟨2, ["a"], [("a", 5)]⟩], []⟩).heap =
      [⟨0, [], [("a", 9)]⟩, ⟨1, ["a"], [("a", 5)]⟩] ∧
    ∃ e ∈ (stepLoop storeMerge "" ⟨[⟨2, ["a"], [("a", 5)]⟩], []⟩).heap,
      e.paths = [] := by
  constructor
  · rfl
  · exact ⟨⟨0, [], [("a", 9)]⟩, by decide, rfl⟩

/-! ## Reachability and domain invariants of the loop -/

theorem stepLoop_reach {st : GitStore} {treePath : String} {c : Nat} (s : LoopState)
    (hs : (∀ e ∈ s.heap, Reach st c e.commit) ∧ ∀ kv ∈ s.results, Reach st c kv.2) :
    (∀ e ∈ (stepLoop st treePath s).heap, Reach st c e.commit) ∧
    ∀ kv ∈ (stepLoop st treePath s).results, Reach st c kv.2 := by
  cases hpop : popMax st s.heap with
  | none => rw [stepLoop, hpop]; exact hs
  | some pr =>
    obtain ⟨current, rest⟩ := pr
    have hperm := popMax_perm hpop
    have hcur : Reach st c current.commit :=
      hs.1 current (hperm.symm.subset (List.mem_cons_self _ _))
    rw [stepLoop_of_pop hpop]
    constructor
    · intro e he
      rcases List.mem_append.mp he with hc | hc
      · exact hs.1 e (hperm.symm.subset (List.mem_cons_of_mem _ hc))
      · rw [stepPushes] at hc
        by_cases hemp : (stepRecord st treePath current s.results).2.isEmpty
        · rw [if_pos hemp] at hc; cases hc
        · rw [if_neg hemp] at hc
          have := mem_collectParents (pushList_commit_mem hc)
          exact Reach.step hcur this
    · intro kv hkv
      rcases recordPaths_fst_mem hkv with hc | hc
      · exact hs.2 kv hc
      · rw [hc.2]; exact hcur

theorem stepLoop_paths_subset {st : GitStore} {treePath : String}
    (paths : List String) (s : LoopState)
    (hs : (∀ kv ∈ s.results, kv.1 ∈ paths) ∧ ∀ e ∈ s.heap, ∀ x ∈ e.paths, x ∈ paths) :
    (∀ kv ∈ (stepLoop st treePath s).results, kv.1 ∈ paths) ∧
    ∀ e ∈ (stepLoop st treePath s).heap, ∀ x ∈ e.paths, x ∈ paths := by
  cases hpop : popMax st s.heap with
  | none => rw [stepLoop, hpop]; exact hs
  | some pr =>
    obtain ⟨current, rest⟩ := pr
    have hperm := popMax_perm hpop
    have hcur : ∀ x ∈ current.paths, x ∈ paths :=
      hs.2 current (hperm.symm.subset (List.mem_cons_self _ _))
    rw [stepLoop_of_pop hpop]
    constructor
    · intro kv hkv
      rcases recordPaths_fst_mem hkv with hc | hc
      · exact hs.1 kv hc
      · exact hcur kv.1 hc.1
    · intro e he x hx
      rcases List.mem_append.mp he with hc | hc
      · exact hs.2 e (hperm.symm.subset (List.mem_cons_of_mem _ hc)) x hx
      · rw [stepPushes] at hc
        by_cases hemp : (stepRecord st treePath current s.results).2.isEmpty
        · rw [if_pos hemp] at hc; cases hc
        · rw [if_neg hemp] at hc
          have hrem := pushList_paths_sub hc hx
          rcases recordPaths_snd_mem hrem with hc' | hc'
          · cases hc'
          · exact hcur x hc'.1

theorem stepLoop_keeps_result {st : GitStore} {treePath : String} {s : LoopState}
    {q : String} {v : Nat} (h : lookupPath s.results q = some v) :
    lookupPath (stepLoop st treePath s).results q = some v := by
  cases hpop : popMax st s.heap with
  | none => rw [stepLoop, hpop]; exact h
  | some pr =>
    obtain ⟨current, rest⟩ := pr
    rw [stepLoop_of_pop hpop]
    exact recordPaths_lookup_of_some h

/-- Claim C7: every commit in the mapping returned by
`getLastCommitForPaths` is reachable from the start commit by following
parent edges — an ancestor of (or equal to) the start commit. -/
theorem result_commit_is_ancestor {st : GitStore} {fuel : Nat} {c : Nat}
    {treePath : String} {paths : List String} {m : List (String × Nat)}
    (hok : getLastCommitForPaths st fuel c treePath paths = .ok m)
    {q : String} {r : Nat} (hq : lookupPath m q = some r) : Reach st c r := by
  rw [getLastCommitForPaths] at hok
  cases hih : getFileHashes st c treePath paths with
  | error e => rw [hih] at hok; cases hok
  | ok ihm =>
    rw [hih] at hok
    have hinit : (∀ e ∈ ([⟨c, paths, ihm⟩] : List commitAndPaths), Reach st c e.commit) ∧
        ∀ kv ∈ ([] : List (String × Nat)), Reach st c kv.2 := by
      constructor
      · intro e he
        rcases List.mem_singleton.mp he with rfl
        exact Reach.refl c
      · intro kv hkv
        cases hkv
    have hinv : (∀ e ∈ (loopN st treePath fuel ⟨[⟨c, paths, ihm⟩], []⟩).heap,
        Reach st c e.commit) ∧
        ∀ kv ∈ (loopN st treePath fuel ⟨[⟨c, paths, ihm⟩], []⟩).results, Reach st c kv.2 :=
      loopN_inv
        (fun s => (∀ e ∈ s.heap, Reach st c e.commit) ∧ ∀ kv ∈ s.results, Reach st c kv.2)
        (fun s hs => stepLoop_reach s hs) ⟨[⟨c, paths, ihm⟩], []⟩ hinit fuel
    have hm := postProcess_ok_eq hok
    subst hm
    exact hinv.2 (q, r) (lookupPath_mem hq)

/-- Witness for claim C7 on `storeLinear`: `b` resolves to commit 1, which
is an ancestor of the start commit 2. -/
theorem result_commit_is_ancestor_witness : Reach storeLinear 2 1 :=
  @result_commit_is_ancestor storeLinear 20 2 "" ["a", "b"]
    [("a", 2), ("b", 1)] rfl "b" 1 rfl

/-- Claim C10: every key of the returned mapping is one of the requested
paths, and a binding once recorded by some iteration survives unchanged in
every later iteration (write-once results). -/
theorem result_keys_requested_and_write_once (st : GitStore) (fuel : Nat) (c : Nat)
    (treePath : String) (paths : List String) :
    (∀ m, getLastCommitForPaths st fuel c treePath paths = .ok m →
      ∀ q v, lookupPath m q = some v → q ∈ paths) ∧
    (∀ ihm, getFileHashes st c treePath paths = .ok ihm →
      ∀ n n' q v, n ≤ n' →
        lookupPath (loopN st treePath n ⟨[⟨c, paths, ihm⟩], []⟩).results q = some v →
        lookupPath (loopN st treePath n' ⟨[⟨c, paths, ihm⟩], []⟩).results q = some v) := by
  constructor
  · intro m hok q v hq
    rw [getLastCommitForPaths] at hok
    cases hih : getFileHashes st c treePath paths with
    | error e => rw [hih] at hok; cases hok
    | ok ihm =>
      rw [hih] at hok
      have hinit : (∀ kv ∈ ([] : List (String × Nat)), kv.1 ∈ paths) ∧
          ∀ e ∈ ([⟨c, paths, ihm⟩] : List commitAndPaths), ∀ x ∈ e.paths, x ∈ paths := by
        constructor
        · intro kv hkv; cases hkv
        · intro e he x hx
          rcases List.mem_singleton.mp he with rfl
          exact hx
      have hinv : (∀ kv ∈ (loopN st treePath fuel ⟨[⟨c, paths, ihm⟩], []⟩).results,
          kv.1 ∈ paths) ∧
          ∀ e ∈ (loopN st treePath fuel ⟨[⟨c, paths, ihm⟩], []⟩).heap,
            ∀ x ∈ e.paths, x ∈ paths :=
        loopN_inv
          (fun s => (∀ kv ∈ s.results, kv.1 ∈ paths) ∧ ∀ e ∈ s.heap, ∀ x ∈ e.paths, x ∈ paths)
          (fun s hs => stepLoop_paths_subset paths s hs) ⟨[⟨c, paths, ihm⟩], []⟩ hinit fuel
      have hm := postProcess_ok_eq hok
      subst hm
      exact hinv.1 (q, v) (lookupPath_mem hq)
  · intro ihm hih n n' q v hnn hlook
    obtain ⟨k, rfl⟩ : ∃ k, n' = n + k := ⟨n' - n, by omega⟩
    rw [loopN_add]
    have hres : lookupPath
        (loopN st treePath k (loopN st treePath n ⟨[⟨c, paths, ihm⟩], []⟩)).results q =
        some v :=
      loopN_inv (fun s => lookupPath s.results q = some v)
        (fun s hs => stepLoop_keeps_result hs)
        (loopN st treePath n ⟨[⟨c, paths, ihm⟩], []⟩) hlook k
    exact hres

/-- Witness for claim C10 on `storeLinear`: the returned key `a` is a
requested path, and the binding `a` to commit 2 recorded after one iteration
is still present after nine. -/
theorem result_keys_requested_and_write_once_witness :
    "a" ∈ ["a", "b"] ∧
    lookupPath (loopN storeLinear "" 9
      ⟨[⟨2, ["a", "b"], [("a", 4), ("b", 3)]⟩], []⟩).results "a" = some 2 := by
  have h := result_keys_requested_and_write_once storeLinear 20 2 "" ["a", "b"]
  constructor
  · exact h.1 [("a", 2), ("b", 1)] rfl "a" 2 rfl
  · exact h.2 [("a", 4), ("b", 3)] rfl 1 9 "a" 2 (by omega) rfl

/-! ## Commit-id bounds and the termination measure -/

theorem stepLoop_heap_le {st : GitStore} {treePath : String} {n B : Nat}
    (hgood : goodParents st n B = true) (s : LoopState)
    (hheap : ∀ e ∈ s.heap, e.commit ≤ n) :
    ∀ e ∈ (stepLoop st treePath s).heap, e.commit ≤ n := by
  cases hpop : popMax st s.heap with
  | none => rw [stepLoop, hpop]; exact hheap
  | some pr =>
    obtain ⟨current, rest⟩ := pr
    have hperm := popMax_perm hpop
    have hcur : current.commit ≤ n :=
      hheap current (hperm.symm.subset (List.mem_cons_self _ _))
    rw [stepLoop_of_pop hpop]
    intro e he
    rcases List.mem_append.mp he with hc | hc
    · exact hheap e (hperm.symm.subset (List.mem_cons_of_mem _ hc))
    · rw [stepPushes] at hc
      by_cases hemp : (stepRecord st treePath current s.results).2.isEmpty
      · rw [if_pos hemp] at hc; cases hc
      · rw [if_neg hemp] at hc
        have := goodParents_topo hgood hcur (mem_collectParents (pushList_commit_mem hc))
        omega

theorem stepLoop_results_le {st : GitStore} {treePath : String} {n : Nat}
    (s : LoopState)
    (hheap : ∀ e ∈ s.heap, e.commit ≤ n) (hres : ∀ kv ∈ s.results, kv.2 ≤ n) :
    ∀ kv ∈ (stepLoop st treePath s).results, kv.2 ≤ n := by
  cases hpop : popMax st s.heap with
  | none => rw [stepLoop, hpop]; exact hres
  | some pr =>
    obtain ⟨current, rest⟩ := pr
    have hperm := popMax_perm hpop
    have hcur : current.commit ≤ n :=
      hheap current (hperm.symm.subset (List.mem_cons_self _ _))
    rw [stepLoop_of_pop hpop]
    intro kv hkv
    rcases recordPaths_fst_mem hkv with hc | hc
    · exact hres kv hc
    · rw [hc.2]; exact hcur

theorem stepLoop_wHeap_lt {st : GitStore} {treePath : String} {n B : Nat}
    (hgood : goodParents st n B = true) {s : LoopState}
    (hheap : ∀ e ∈ s.heap, e.commit ≤ n) (hne : s.heap ≠ []) :
    wHeap B (stepLoop st treePath s).heap < wHeap B s.heap := by
  obtain ⟨current, rest, hpop⟩ := popMax_of_ne_nil hne
  have hperm := popMax_perm hpop
  have hB2 : 2 ≤ B := goodParents_two_le hgood
  have hcur : current.commit ≤ n :=
    hheap current (hperm.symm.subset (List.mem_cons_self _ _))
  have hsplit : wHeap B s.heap = wEntry B current + wHeap B rest := by
    rw [wHeap_perm hperm, wHeap, List.map_cons, List.sum_cons]
    rfl
  rw [stepLoop_of_pop hpop]
  dsimp only
  rw [wHeap_append]
  have hpush : wHeap B (stepPushes st treePath current s.results) < wEntry B current := by
    rw [stepPushes]
    by_cases hemp : (stepRecord st treePath current s.results).2.isEmpty
    · rw [if_pos hemp]
      exact wEntry_pos (by omega) current
    · rw [if_neg hemp]
      have hps : ∀ p ∈ stepParents st current, p + 1 ≤ current.commit := by
        intro p hp
        have := goodParents_topo hgood hcur (mem_collectParents hp)
        omega
      have hb : wHeap B (pushList current.hashes (stepParents st current)
          (stepScan st treePath current).1
          (stepRecord st treePath current s.results).2) ≤
          ((stepRecord st treePath current s.results).2.length +
            (stepParents st current).length) * B ^ current.commit :=
        pushList_wHeap_le (by omega) hps
      have hrem : (stepRecord st treePath current s.results).2.length ≤
          current.paths.length := by
        have h1 := recordPaths_snd_length current.commit (stepUnch st treePath current)
          current.paths s.results []
        simpa using h1
      have hpl : (stepParents st current).length + 2 ≤ B := by
        have h0 : stepParents st current = collectParents (st current.commit).parents := rfl
        have h1 := collectParents_length_le (st current.commit).parents
        have h2 := goodParents_len hgood hcur
        rw [h0]
        omega
      have hpow : 0 < B ^ current.commit := Nat.pos_pow_of_pos _ (by omega)
      have hx : current.paths.length ≤ current.paths.length * B :=
        Nat.le_mul_of_pos_right _ (by omega)
      have hlt : (stepRecord st treePath current s.results).2.length +
          (stepParents st current).length < (current.paths.length + 1) * B := by
        calc (stepRecord st treePath current s.results).2.length +
            (stepParents st current).length
            < current.paths.length + B := by omega
          _ ≤ current.paths.length * B + B := Nat.add_le_add_right hx B
          _ = (current.paths.length + 1) * B := by ring
      calc wHeap B (pushList current.hashes (stepParents st current)
            (stepScan st treePath current).1
            (stepRecord st treePath current s.results).2)
          ≤ ((stepRecord st treePath current s.results).2.length +
              (stepParents st current).length) * B ^ current.commit := hb
        _ < ((current.paths.length + 1) * B) * B ^ current.commit :=
            mul_lt_mul_of_pos_right hlt hpow
        _ = wEntry B current := by rw [wEntry, pow_succ]; ring
  omega

theorem loopN_empties {st : GitStore} {treePath : String} {n B : Nat}
    (hgood : goodParents st n B = true) :
    ∀ fuel (s : LoopState), (∀ e ∈ s.heap, e.commit ≤ n) → wHeap B s.heap ≤ fuel →
      (loopN st treePath fuel s).heap = [] := by
  intro fuel
  induction fuel with
  | zero =>
    intro s hb hw
    exact wHeap_eq_nil (by have := goodParents_two_le hgood; omega) (Nat.le_zero.mp hw)
  | succ f ih =>
    intro s hb hw
    rw [loopN]
    by_cases hemp : s.heap.isEmpty
    · rw [if_pos hemp]; exact List.isEmpty_iff.mp hemp
    · rw [if_neg hemp]
      have hne : s.heap ≠ [] := by
        intro hc
        rw [hc] at hemp
        exact hemp rfl
      have hlt : wHeap B (stepLoop st treePath s).heap < wHeap B s.heap :=
        stepLoop_wHeap_lt hgood hb hne
      exact ih (stepLoop st treePath s) (stepLoop_heap_le hgood s hb) (by omega)

/-- Claim C1 (amended): only the initial hash computation at the start
commit and the final `Commit()` conversion can abort the call.  Whenever the
initial fetch succeeds and every commit up to the start converts, the whole
call returns a mapping — no failure of a parent-node fetch or of a parent's
hash computation during the traversal ever surfaces as an error. -/
theorem abort_only_init_or_post {st : GitStore} {fuel c B : Nat} {treePath : String}
    {paths : List String} (hgood : goodParents st c B = true)
    (hinit : exOk (getFileHashes st c treePath paths) = true)
    (hcommits : commitsOk st c = true) :
    ∃ m, getLastCommitForPaths st fuel c treePath paths = .ok m := by
  have hih := exVal_ok hinit
  rw [getLastCommitForPaths, hih]
  dsimp only
  have hinith : (∀ e ∈ ([⟨c, paths, exVal (getFileHashes st c treePath paths)⟩] :
      List commitAndPaths), e.commit ≤ c) ∧
      ∀ kv ∈ ([] : List (String × Nat)), kv.2 ≤ c := by
    constructor
    · intro e he
      rcases List.mem_singleton.mp he with rfl
      exact Nat.le_refl c
    · intro kv hkv
      cases hkv
  have hinv : (∀ e ∈ (loopN st treePath fuel
      ⟨[⟨c, paths, exVal (getFileHashes st c treePath paths)⟩], []⟩).heap, e.commit ≤ c) ∧
      ∀ kv ∈ (loopN st treePath fuel
        ⟨[⟨c, paths, exVal (getFileHashes st c treePath paths)⟩], []⟩).results, kv.2 ≤ c :=
    loopN_inv
      (fun s => (∀ e ∈ s.heap, e.commit ≤ c) ∧ ∀ kv ∈ s.results, kv.2 ≤ c)
      (fun s hs => ⟨stepLoop_heap_le hgood s hs.1,
        stepLoop_results_le s hs.1 hs.2⟩)
      ⟨[⟨c, paths, exVal (getFileHashes st c treePath paths)⟩], []⟩ hinith fuel
  refine ⟨_, postProcess_ok_of ?_⟩
  intro kv hkv
  rw [commitsOk_obj hcommits (hinv.2 kv hkv)]
  rfl

/-- Claim C1 counterexample: in `storeFetchErr`, commit 0 is a parent of the
start commit 1 and fetching its tree (hence its hashes) fails with an I/O
error during the traversal, yet the call completes with a mapping instead of
propagating the error. -/
theorem traversal_fetch_error_swallowed :
    getLastCommitForPaths storeFetchErr 20 1 "" ["a"] = .ok [("a", 1)] ∧
    getFileHashes storeFetchErr 0 "" ["a"] = .error .ioError ∧
    Except.ok 0 ∈ (storeFetchErr 1).parents := by
  refine ⟨rfl, rfl, ?_⟩
  show Except.ok 0 ∈ [Except.ok 0]
  exact List.mem_singleton.mpr rfl

/-- Claim C8: on a topologically numbered store whose commits up to the
start have fewer than `B - 1` parents, the traversal loop empties the heap
within `(|paths| + 1) * B ^ (start + 1)` iterations, and running
`getLastCommitForPaths` with any larger fuel returns the same value — the
pop/push loop terminates. -/
theorem traversal_terminates {st : GitStore} {c B : Nat} {treePath : String}
    {paths : List String} (hgood : goodParents st c B = true)
    {ihm : List (String × Nat)} (hinit : getFileHashes st c treePath paths = .ok ihm)
    {fuel : Nat} (hfuel : (paths.length + 1) * B ^ (c + 1) ≤ fuel) :
    (loopN st treePath fuel ⟨[⟨c, paths, ihm⟩], []⟩).heap = [] ∧
    getLastCommitForPaths st fuel c treePath paths =
      getLastCommitForPaths st ((paths.length + 1) * B ^ (c + 1)) c treePath paths := by
  have hw : wHeap B (([⟨c, paths, ihm⟩] : List commitAndPaths)) =
      (paths.length + 1) * B ^ (c + 1) := by
    simp [wHeap, wEntry]
  have hb : ∀ e ∈ ([⟨c, paths, ihm⟩] : List commitAndPaths), e.commit ≤ c := by
    intro e he
    rcases List.mem_singleton.mp he with rfl
    exact Nat.le_refl c
  constructor
  · exact loopN_empties hgood fuel _ hb (by rw [show (⟨[⟨c, paths, ihm⟩], []⟩ :
      LoopState).heap = [⟨c, paths, ihm⟩] from rfl, hw]; exact hfuel)
  · obtain ⟨k, rfl⟩ : ∃ k, fuel = (paths.length + 1) * B ^ (c + 1) + k :=
      ⟨fuel - (paths.length + 1) * B ^ (c + 1), by omega⟩
    rw [getLastCommitForPaths, getLastCommitForPaths, hinit]
    dsimp only
    rw [loopN_add]
    rw [loopN_heap_empty (loopN_empties hgood _ _ hb (le_of_eq hw)) k]

/-- Witness for claim C8 on `storeLinear`: with `B = 3` the heap is empty
after the computed fuel bound and a larger fuel gives the same call result. -/
theorem traversal_terminates_witness :
    (loopN storeLinear "" 81
      ⟨[⟨2, ["a", "b"], [("a", 4), ("b", 3)]⟩], []⟩).heap = [] ∧
    getLastCommitForPaths storeLinear 81 2 "" ["a", "b"] =
      getLastCommitForPaths storeLinear ((["a", "b"].length + 1) * 3 ^ (2 + 1)) 2 ""
        ["a", "b"] :=
  @traversal_terminates storeLinear 2 3 "" ["a", "b"] (by decide)
    [("a", 4), ("b", 3)] rfl 81 (by decide)

/-- Witness for the amended claim C1 on `storeFetchErr`: despite the parent
tree fetch failing mid-traversal, the call returns a mapping. -/
theorem abort_only_init_or_post_witness :
    ∃ m, getLastCommitForPaths storeFetchErr 7 1 "" ["a"] = .ok m :=
  @abort_only_init_or_post storeFetchErr 7 1 3 "" ["a"] (by decide) (by decide)
    (by decide)

/-! ## Liveness of unresolved paths -/

theorem stepLoop_path_alive {st : GitStore} {treePath : String} {q : String}
    (s : LoopState)
    (hs : (∃ v, lookupPath s.results q = some v) ∨ ∃ e ∈ s.heap, q ∈ e.paths) :
    (∃ v, lookupPath (stepLoop st treePath s).results q = some v) ∨
    ∃ e ∈ (stepLoop st treePath s).heap, q ∈ e.paths := by
  rcases hs with ⟨v, hv⟩ | ⟨e, he, hqe⟩
  · exact Or.inl ⟨v, stepLoop_keeps_result hv⟩
  · cases hpop : popMax st s.heap with
    | none =>
      rw [stepLoop, hpop]
      exact Or.inr ⟨e, he, hqe⟩
    | some pr =>
      obtain ⟨current, rest⟩ := pr
      have hperm := popMax_perm hpop
      rw [stepLoop_of_pop hpop]
      rcases List.mem_cons.mp (hperm.subset he) with hec | hec
      · subst hec
        cases hres : lookupPath s.results q with
        | some v =>
          exact Or.inl ⟨v, recordPaths_lookup_of_some hres⟩
        | none =>
          cases hu : stepUnch st treePath e q with
          | false =>
            exact Or.inl ⟨e.commit, recordPaths_lookup_records hres hqe hu⟩
          | true =>
            have hrem : q ∈ (stepRecord st treePath e s.results).2 :=
              recordPaths_snd_of_mem hres hqe hu
            have hu' := hu
            rw [stepUnch, List.any_eq_true] at hu'
            obtain ⟨m, hm, hbeq⟩ := hu'
            obtain ⟨j, hjm⟩ := List.mem_iff_getElem?.mp hm
            have hjlt : j < (stepScan st treePath e).2 := by
              by_contra hc
              rw [List.getElem?_eq_none] at hjm
              · cases hjm
              · calc ((stepScan st treePath e).1.take (stepScan st treePath e).2).length
                    ≤ (stepScan st treePath e).2 := List.length_take_le _ _
                  _ ≤ j := Nat.le_of_not_lt hc
            rw [List.getElem?_take_of_lt hjlt] at hjm
            have hjp : j < (stepParents st e).length := by
              have h1 := scanHashes_snd_le st treePath e.paths (stepParents st e)
              have h2 : (stepScan st treePath e).2 ≤ (stepParents st e).length := h1
              omega
            have hmatch : hashOf m q = hashOf e.hashes q := by simpa using hbeq
            obtain ⟨e', he', hqe'⟩ := pushList_deposits hrem hjm hjp hmatch
            have hne : ¬ (stepRecord st treePath e s.results).2.isEmpty := by
              intro hc
              rw [List.isEmpty_iff] at hc
              rw [hc] at hrem
              cases hrem
            refine Or.inr ⟨e', ?_, hqe'⟩
            rw [stepPushes, if_neg hne]
            exact List.mem_append.mpr (Or.inr he')
      · exact Or.inr ⟨e, List.mem_append.mpr (Or.inl hec), hqe⟩

/-- Claim C2 (amended): requested paths are never dropped from the working set:
with the traversal run to completion and successful commit conversions,
every requested path — present or absent at the start commit — appears in
the returned mapping. -/
theorem every_requested_path_resolved {st : GitStore} {c B : Nat} {treePath : String}
    {paths : List String} (hgood : goodParents st c B = true)
    (hcommits : commitsOk st c = true)
    {ihm : List (String × Nat)} (hinit : getFileHashes st c treePath paths = .ok ihm)
    {fuel : Nat} (hfuel : (paths.length + 1) * B ^ (c + 1) ≤ fuel)
    {q : String} (hq : q ∈ paths) :
    ∃ m v, getLastCommitForPaths st fuel c treePath paths = .ok m ∧
      lookupPath m q = some v := by
  have hb : ∀ e ∈ ([⟨c, paths, ihm⟩] : List commitAndPaths), e.commit ≤ c := by
    intro e he
    rcases List.mem_singleton.mp he with rfl
    exact Nat.le_refl c
  have hw : wHeap B ([⟨c, paths, ihm⟩] : List commitAndPaths) =
      (paths.length + 1) * B ^ (c + 1) := by
    simp [wHeap, wEntry]
  have hempty : (loopN st treePath fuel ⟨[⟨c, paths, ihm⟩], []⟩).heap = [] :=
    loopN_empties hgood fuel _ hb (by
      rw [show (⟨[⟨c, paths, ihm⟩], []⟩ : LoopState).heap = [⟨c, paths, ihm⟩] from rfl, hw]
      exact hfuel)
  have halive : (∃ v, lookupPath
      (loopN st treePath fuel ⟨[⟨c, paths, ihm⟩], []⟩).results q = some v) ∨
      ∃ e ∈ (loopN st treePath fuel ⟨[⟨c, paths, ihm⟩], []⟩).heap, q ∈ e.paths :=
    loopN_inv
      (fun s => (∃ v, lookupPath s.results q = some v) ∨ ∃ e ∈ s.heap, q ∈ e.paths)
      (fun s hs => stepLoop_path_alive s hs) ⟨[⟨c, paths, ihm⟩], []⟩
      (Or.inr ⟨⟨c, paths, ihm⟩, List.mem_singleton.mpr rfl, hq⟩) fuel
  rcases halive with ⟨v, hv⟩ | ⟨e, he, -⟩
  · have hinith : (∀ e ∈ ([⟨c, paths, ihm⟩] : List commitAndPaths), e.commit ≤ c) ∧
        ∀ kv ∈ ([] : List (String × Nat)), kv.2 ≤ c :=
      ⟨hb, fun kv hkv => by cases hkv⟩
    have hinv : (∀ e ∈ (loopN st treePath fuel ⟨[⟨c, paths, ihm⟩], []⟩).heap,
        e.commit ≤ c) ∧
        ∀ kv ∈ (loopN st treePath fuel ⟨[⟨c, paths, ihm⟩], []⟩).results, kv.2 ≤ c :=
      loopN_inv
        (fun s => (∀ e ∈ s.heap, e.commit ≤ c) ∧ ∀ kv ∈ s.results, kv.2 ≤ c)
        (fun s hs => ⟨stepLoop_heap_le hgood s hs.1, stepLoop_results_le s hs.1 hs.2⟩)
        ⟨[⟨c, paths, ihm⟩], []⟩ hinith fuel
    refine ⟨(loopN st treePath fuel ⟨[⟨c, paths, ihm⟩], []⟩).results, v, ?_, hv⟩
    rw [getLastCommitForPaths, hinit]
    dsimp only
    exact postProcess_ok_of fun kv hkv => by
      rw [commitsOk_obj hcommits (hinv.2 kv hkv)]
      rfl
  · rw [hempty] at he
    cases he

/-- Claim C2 counterexample: the path `zzz` is absent at the start commit of
`storeAbsent` (the initial hash computation returns the empty mapping), yet
the call returns a mapping whose domain contains `zzz`, resolved at the root
commit — absent paths are not dropped before the traversal. -/
theorem absent_path_in_result :
    getLastCommitForPaths storeAbsent 20 0 "" ["zzz"] = .ok [("zzz", 0)] ∧
    getFileHashes storeAbsent 0 "" ["zzz"] = .ok [] :=
  ⟨rfl, rfl⟩

/-- Witness for the amended claim C2 on `storeAbsent`: the absent path `zzz`
still receives a binding in the returned mapping. -/
theorem every_requested_path_resolved_witness :
    ∃ m v, getLastCommitForPaths storeAbsent 4 0 "" ["zzz"] = .ok m ∧
      lookupPath m "zzz" = some v :=
  @every_requested_path_resolved storeAbsent 0 2 "" ["zzz"] (by decide) (by decide)
    [] rfl 4 (by decide) "zzz" (by decide)

/-! ## The root-law invariant -/

theorem stepLoop_rootlaw {st : GitStore} {treePath : String} {c B : Nat} {q : String}
    (hgood : goodParents st c B = true)
    (hallok : parentsAllOk st c = true)
    (htrees : treesOk st treePath c = true)
    (hconst : ∀ d, d ≤ c → fileHash st treePath d q = fileHash st treePath c q)
    (s : LoopState)
    (hs : (lookupPath s.results q = some (fpRoot st c) ∧
        s.heap.countP (fun e => decide (q ∈ e.paths)) = 0) ∨
      (lookupPath s.results q = none ∧
        s.heap.countP (fun e => decide (q ∈ e.paths)) = 1 ∧
        ∀ e ∈ s.heap, q ∈ e.paths →
          e.commit ≤ c ∧ fpRoot st e.commit = fpRoot st c ∧
          hashOf e.hashes q = fileHash st treePath c q)) :
    (lookupPath (stepLoop st treePath s).results q = some (fpRoot st c) ∧
      (stepLoop st treePath s).heap.countP (fun e => decide (q ∈ e.paths)) = 0) ∨
    (lookupPath (stepLoop st treePath s).results q = none ∧
      (stepLoop st treePath s).heap.countP (fun e => decide (q ∈ e.paths)) = 1 ∧
      ∀ e ∈ (stepLoop st treePath s).heap, q ∈ e.paths →
        e.commit ≤ c ∧ fpRoot st e.commit = fpRoot st c ∧
        hashOf e.hashes q = fileHash st treePath c q) := by
  have htopo : ∀ d, d ≤ c → ∀ p, Except.ok p ∈ (st d).parents → p < d :=
    fun d hd p hp => goodParents_topo hgood hd hp
  cases hpop : popMax st s.heap with
  | none => rw [stepLoop, hpop]; exact hs
  | some pr =>
    obtain ⟨current, rest⟩ := pr
    have hperm := popMax_perm hpop
    have hcntsplit : s.heap.countP (fun e => decide (q ∈ e.paths)) =
        rest.countP (fun e => decide (q ∈ e.paths)) +
          (if q ∈ current.paths then 1 else 0) := by
      rw [hperm.countP_eq, List.countP_cons]
      by_cases hqc : q ∈ current.paths <;> simp [hqc]
    have hpushq : (∀ x ∈ (stepRecord st treePath current s.results).2, x ≠ q) →
        ∀ e ∈ stepPushes st treePath current s.results, q ∉ e.paths := by
      intro hnq e he hqe
      rw [stepPushes] at he
      by_cases hemp : (stepRecord st treePath current s.results).2.isEmpty
      · rw [if_pos hemp] at he; cases he
      · rw [if_neg hemp] at he
        exact hnq q (pushList_paths_sub he hqe) rfl
    rw [stepLoop_of_pop hpop]
    dsimp only
    rcases hs with ⟨hres, hcnt⟩ | ⟨hres, hcnt, hprops⟩
    · -- the path is already resolved
      have hqc : q ∉ current.paths := by
        intro hqc
        rw [hcntsplit, if_pos hqc] at hcnt
        omega
      have hcntrest : rest.countP (fun e => decide (q ∈ e.paths)) = 0 := by
        rw [hcntsplit, if_neg hqc] at hcnt
        omega
      have hnq : ∀ x ∈ (stepRecord st treePath current s.results).2, x ≠ q := by
        intro x hx hxq
        subst hxq
        rcases recordPaths_snd_mem hx with h | h
        · cases h
        · exact hqc h.1
      left
      refine ⟨recordPaths_lookup_of_some hres, ?_⟩
      rw [List.countP_append, hcntrest,
        List.countP_eq_zero.mpr fun e he => by simpa using hpushq hnq e he]
    · by_cases hqc : q ∈ current.paths
      · -- the unresolved path sits in the popped entry
        obtain ⟨hcc, hfp, hh⟩ :=
          hprops current (hperm.symm.subset (List.mem_cons_self _ _)) hqc
        have hcntrest : rest.countP (fun e => decide (q ∈ e.paths)) = 0 := by
          rw [hcntsplit, if_pos hqc] at hcnt
          omega
      -- every collected parent is below the start commit and fetches cleanly
        have hoks : ∀ p ∈ stepParents st current,
            exOk (getFileHashes st p treePath current.paths) = true := by
          intro p hp
          have hplt := htopo current.commit hcc p (mem_collectParents hp)
          exact treesOk_fileHashes htrees (by omega) current.paths
        have hper : ∀ p ∈ stepParents st current,
            hashOf (exVal (getFileHashes st p treePath current.paths)) q =
              fileHash st treePath c q := by
          intro p hp
          have hplt := htopo current.commit hcc p (mem_collectParents hp)
          have hok := hoks p hp
          have hval := exVal_ok hok
          rw [getFileHashes_hashOf hqc hval, hconst p (by omega)]
        cases hpsc : (st current.commit).parents with
        | nil =>
          -- the popped commit is a root: the recording step fires here
          have hsp : stepParents st current = [] := by
            have h0 : stepParents st current =
                collectParents (st current.commit).parents := rfl
            rw [h0, hpsc]
            rfl
          have hu : stepUnch st treePath current q = false := by
            have h0 : stepScan st treePath current =
                scanHashes st treePath current.paths (stepParents st current) := rfl
            rw [stepUnch, h0, hsp]
            rfl
          have hcomr : current.commit = fpRoot st c := by
            rw [← hfp, fpRoot_of_nil hpsc]
          left
          constructor
          · rw [← hcomr]
            exact recordPaths_lookup_records hres hqc hu
          · rw [List.countP_append, hcntrest, List.countP_eq_zero.mpr]
            intro e he
            rw [stepPushes] at he
            by_cases hemp : (stepRecord st treePath current s.results).2.isEmpty
            · rw [if_pos hemp] at he; cases he
            · rw [if_neg hemp] at he
              have := pushList_commit_mem he
              rw [hsp] at this
              cases this
        | cons x tail =>
          -- the popped commit has a first parent, which must match
          obtain ⟨p0, rfl⟩ := parentsAllOk_spec hallok hcc
            (by rw [hpsc]; exact List.mem_cons_self x tail)
          have hsp : stepParents st current = p0 :: collectParents tail := by
            have h0 : stepParents st current =
                collectParents (st current.commit).parents := rfl
            rw [h0, hpsc]
            rfl
          have hp0 : p0 ∈ stepParents st current := by
            rw [hsp]
            exact List.mem_cons_self _ _
          have hp0lt : p0 < current.commit :=
            htopo current.commit hcc p0 (by rw [hpsc]; exact List.mem_cons_self _ _)
          have hmatch0 : hashOf (exVal (getFileHashes st p0 treePath current.paths)) q =
              hashOf current.hashes q := by
            rw [hper p0 hp0, hh]
          have hu : stepUnch st treePath current q = true := by
            rw [stepUnch_of_ok hoks, List.any_eq_true]
            exact ⟨p0, hp0, by simp [hmatch0]⟩
          have hrem : q ∈ (stepRecord st treePath current s.results).2 :=
            recordPaths_snd_of_mem hres hqc hu
          have hemp : ¬ (stepRecord st treePath current s.results).2.isEmpty := by
            intro hcemp
            rw [List.isEmpty_iff] at hcemp
            rw [hcemp] at hrem
            cases hrem
          have hpe : stepPushes st treePath current s.results =
              pushList current.hashes (stepParents st current)
                (stepScan st treePath current).1
                (stepRecord st treePath current s.results).2 := by
            rw [stepPushes, if_neg hemp]
          have hmaps : (stepScan st treePath current).1 =
              (stepParents st current).map
                (fun p => exVal (getFileHashes st p treePath current.paths)) := by
            rw [stepScan_all_ok hoks]
          have hjm : (stepScan st treePath current).1[0]? =
              some (exVal (getFileHashes st p0 treePath current.paths)) := by
            rw [hmaps, hsp]
            simp
          have hjp : 0 < (stepParents st current).length := by
            rw [hsp]
            exact Nat.succ_pos _
          obtain ⟨⟨e0, he0, hpe0, hme0, hqe0⟩, huniq⟩ :=
            pushList_get_first_match hrem hjm hjp hmatch0
              (fun i hi mi hmi => absurd hi (Nat.not_lt_zero i))
          have he0c : e0.commit = p0 := by
            rw [hsp] at hpe0
            simp only [List.getElem?_cons_zero, Option.some.injEq] at hpe0
            rw [hpe0]
          have honly : ∀ e ∈ pushList current.hashes (stepParents st current)
              (stepScan st treePath current).1
              (stepRecord st treePath current s.results).2, q ∈ e.paths → e = e0 := by
            intro e he hqe
            obtain ⟨i, hi⟩ := List.mem_iff_getElem?.mp he
            by_cases hi0 : i = 0
            · subst hi0
              rw [he0] at hi
              cases hi
              rfl
            · exact absurd hqe (huniq i e hi hi0)
          right
          refine ⟨recordPaths_lookup_of_none_not_rec hres (fun _ => hu), ?_, ?_⟩
          · rw [List.countP_append, hcntrest, hpe,
              pushList_countP_eq_one hrem hjm hjp hmatch0]
          · intro e he hqe
            rcases List.mem_append.mp he with hc | hc
            · exact absurd hqe (by simpa using List.countP_eq_zero.mp hcntrest e hc)
            · rw [hpe] at hc
              rw [honly e hc hqe]
              refine ⟨by omega, ?_, ?_⟩
              · rw [he0c, ← fpRoot_head_ok htopo hcc hpsc, hfp]
              · rw [hme0, hper p0 hp0]
      · -- the popped entry does not hold the path
        have hcntrest : rest.countP (fun e => decide (q ∈ e.paths)) = 1 := by
          rw [hcntsplit, if_neg hqc] at hcnt
          omega
        have hnq : ∀ x ∈ (stepRecord st treePath current s.results).2, x ≠ q := by
          intro x hx hxq
          subst hxq
          rcases recordPaths_snd_mem hx with h | h
          · cases h
          · exact hqc h.1
        right
        refine ⟨recordPaths_lookup_of_none_not_rec hres (fun hm => absurd hm hqc),
          ?_, ?_⟩
        · rw [List.countP_append, hcntrest,
            List.countP_eq_zero.mpr fun e he => by simpa using hpushq hnq e he]
        · intro e he hqe
          rcases List.mem_append.mp he with hc | hc
          · exact hprops e (hperm.symm.subset (List.mem_cons_of_mem _ hc)) hqe
          · exact absurd hqe (hpushq hnq e hc)

/-- Claim C4 (root law): a requested path that is present at the start
commit and whose hash is the same at every commit up to the start — so it is
unchanged along its traversal branch all the way to a commit with zero
parents — is resolved by `getLastCommitForPaths` to the first-parent root of
the start commit: a zero-parent ancestor of the start.  The recording step
fires there because a root has no parents to match, and the path is never
silently omitted from the returned mapping. -/
theorem root_law {st : GitStore} {c B : Nat} {treePath : String} {paths : List String}
    (hgood : goodParents st c B = true) (hallok : parentsAllOk st c = true)
    (htrees : treesOk st treePath c = true) (hcommits : commitsOk st c = true)
    {q : String} (hq : q ∈ paths)
    (hconst : ∀ d, d ≤ c → fileHash st treePath d q = fileHash st treePath c q)
    {ihm : List (String × Nat)} (hinit : getFileHashes st c treePath paths = .ok ihm)
    {hv : Nat} (_hpresent : lookupPath ihm q = some hv)
    {fuel : Nat} (hfuel : (paths.length + 1) * B ^ (c + 1) ≤ fuel) :
    ∃ m, getLastCommitForPaths st fuel c treePath paths = .ok m ∧
      lookupPath m q = some (fpRoot st c) ∧
      (st (fpRoot st c)).parents = [] ∧ Reach st c (fpRoot st c) := by
  have htopo : ∀ d, d ≤ c → ∀ p, Except.ok p ∈ (st d).parents → p < d :=
    fun d hd p hp => goodParents_topo hgood hd hp
  have hallok' : ∀ d, d ≤ c → ∀ x ∈ (st d).parents, ∃ p, x = Except.ok p :=
    fun d hd x hx => parentsAllOk_spec hallok hd hx
  have hb : ∀ e ∈ ([⟨c, paths, ihm⟩] : List commitAndPaths), e.commit ≤ c := by
    intro e he
    rcases List.mem_singleton.mp he with rfl
    exact Nat.le_refl c
  have hw : wHeap B ([⟨c, paths, ihm⟩] : List commitAndPaths) =
      (paths.length + 1) * B ^ (c + 1) := by
    simp [wHeap, wEntry]
  have hempty : (loopN st treePath fuel ⟨[⟨c, paths, ihm⟩], []⟩).heap = [] :=
    loopN_empties hgood fuel _ hb (by
      rw [show (⟨[⟨c, paths, ihm⟩], []⟩ : LoopState).heap = [⟨c, paths, ihm⟩] from rfl, hw]
      exact hfuel)
  have hbinit : (lookupPath ([] : List (String × Nat)) q = some (fpRoot st c) ∧
      ([⟨c, paths, ihm⟩] : List commitAndPaths).countP
        (fun e => decide (q ∈ e.paths)) = 0) ∨
      (lookupPath ([] : List (String × Nat)) q = none ∧
        ([⟨c, paths, ihm⟩] : List commitAndPaths).countP
          (fun e => decide (q ∈ e.paths)) = 1 ∧
        ∀ e ∈ ([⟨c, paths, ihm⟩] : List commitAndPaths), q ∈ e.paths →
          e.commit ≤ c ∧ fpRoot st e.commit = fpRoot st c ∧
          hashOf e.hashes q = fileHash st treePath c q) := by
    right
    refine ⟨rfl, by simp [List.countP_cons, hq], ?_⟩
    intro e he hqe
    rcases List.mem_singleton.mp he with rfl
    exact ⟨Nat.le_refl c, rfl, getFileHashes_hashOf hq hinit⟩
  have hinv : (lookupPath (loopN st treePath fuel
        ⟨[⟨c, paths, ihm⟩], []⟩).results q = some (fpRoot st c) ∧
      (loopN st treePath fuel ⟨[⟨c, paths, ihm⟩], []⟩).heap.countP
        (fun e => decide (q ∈ e.paths)) = 0) ∨
      (lookupPath (loopN st treePath fuel
        ⟨[⟨c, paths, ihm⟩], []⟩).results q = none ∧
      (loopN st treePath fuel ⟨[⟨c, paths, ihm⟩], []⟩).heap.countP
        (fun e => decide (q ∈ e.paths)) = 1 ∧
      ∀ e ∈ (loopN st treePath fuel ⟨[⟨c, paths, ihm⟩], []⟩).heap, q ∈ e.paths →
        e.commit ≤ c ∧ fpRoot st e.commit = fpRoot st c ∧
        hashOf e.hashes q = fileHash st treePath c q) :=
    loopN_inv
      (fun s => (lookupPath s.results q = some (fpRoot st c) ∧
          s.heap.countP (fun e => decide (q ∈ e.paths)) = 0) ∨
        (lookupPath s.results q = none ∧
          s.heap.countP (fun e => decide (q ∈ e.paths)) = 1 ∧
          ∀ e ∈ s.heap, q ∈ e.paths →
            e.commit ≤ c ∧ fpRoot st e.commit = fpRoot st c ∧
            hashOf e.hashes q = fileHash st treePath c q))
      (fun s hs => stepLoop_rootlaw hgood hallok htrees hconst s hs)
      ⟨[⟨c, paths, ihm⟩], []⟩ hbinit fuel
  obtain ⟨hroot, hreach, -⟩ := fpRoot_props htopo hallok' c (Nat.le_refl c)
  rcases hinv with ⟨hres, -⟩ | ⟨-, hcnt, -⟩
  · have hinith : (∀ e ∈ ([⟨c, paths, ihm⟩] : List commitAndPaths), e.commit ≤ c) ∧
        ∀ kv ∈ ([] : List (String × Nat)), kv.2 ≤ c :=
      ⟨hb, fun kv hkv => by cases hkv⟩
    have hinvb : (∀ e ∈ (loopN st treePath fuel ⟨[⟨c, paths, ihm⟩], []⟩).heap,
        e.commit ≤ c) ∧
        ∀ kv ∈ (loopN st treePath fuel ⟨[⟨c, paths, ihm⟩], []⟩).results, kv.2 ≤ c :=
      loopN_inv
        (fun s => (∀ e ∈ s.heap, e.commit ≤ c) ∧ ∀ kv ∈ s.results, kv.2 ≤ c)
        (fun s hs => ⟨stepLoop_heap_le hgood s hs.1, stepLoop_results_le s hs.1 hs.2⟩)
        ⟨[⟨c, paths, ihm⟩], []⟩ hinith fuel
    refine ⟨(loopN st treePath fuel ⟨[⟨c, paths, ihm⟩], []⟩).results, ?_, hres,
      hroot, hreach⟩
    rw [getLastCommitForPaths, hinit]
    dsimp only
    exact postProcess_ok_of fun kv hkv => by
      rw [commitsOk_obj hcommits (hinvb.2 kv hkv)]
      rfl
  · rw [hempty] at hcnt
    cases hcnt

/-- Witness for claim C4 on `storeRootLaw`: the path `k` has hash 7 at both
commits; starting from commit 1 it resolves to the root commit 0, which has
no parents and is an ancestor of the start. -/
theorem root_law_witness :
    ∃ m, getLastCommitForPaths storeRootLaw 27 1 "" ["k", "z"] = .ok m ∧
      lookupPath m "k" = some (fpRoot storeRootLaw 1) ∧
      (storeRootLaw (fpRoot storeRootLaw 1)).parents = [] ∧
      Reach storeRootLaw 1 (fpRoot storeRootLaw 1) :=
  @root_law storeRootLaw 1 3 "" ["k", "z"] (by decide) (by decide) (by decide)
    (by decide) "k" (by decide) (by decide) [("k", 7), ("z", 2)] rfl 7 rfl 27
    (by decide)
